import Mathlib

/-!
# Verification of the `beluga` BVP solver core (`src/beluga/bvpsol/_bvp/_bvp.py`)

A shallow embedding, over an arbitrary `LinearOrderedField α`, of the
collocation BVP solver: the collocation evaluator (`collocation_fun`), the
finite-difference Jacobians (`estimate_fun_jac`, `estimate_bc_jac`), the block
assembly of the global Jacobian (`construct_global_jac`), the damped Newton
iteration (`solve_newton`), the cubic-spline reconstructor (`create_spline`),
the Lobatto residual estimator (`estimate_rms_residuals`), mesh insertion
(`modify_mesh`) and the outer driver loop (`solve_bvp`).

Modelling conventions, used throughout:

* floating-point arithmetic is modelled exactly in an ordered field; numpy
  arrays become `List`s (a 2-d array of shape `(n, m)` becomes the list of its
  `m` columns, matching the column orientation of `y` in the source);
* the literal `EPS**0.5` (square root of the double-precision machine epsilon
  `2 ** (-52)`) is exactly `2 ** (-26) = 1 / 67108864`, so forward-difference
  steps stay inside the field; in exact arithmetic the "Dekker" recomputed step
  `(x + h) - x` equals `h` itself;
* the decimal literal `5e-2` is modelled as the exact `5 / 100`;
* `scipy.sparse.linalg.splu` followed by `LU.solve` is modelled by exact
  Gaussian elimination (`gaussSolve`); the factorization raising `RuntimeError`
  on a singular matrix is modelled by `luFactor` returning `none` exactly when
  elimination finds no nonzero pivot in some column;
* `np.sort` is modelled by `List.insertionSort (· ≤ ·)` (an ascending sort);
* out-of-range numpy indexing (an `IndexError`) is modelled by `Option`-valued
  access where the claims require it (`estimate_bc_jac`), and by `List.getD`
  with a junk default elsewhere, with in-range hypotheses in the theorems.
-/

set_option maxRecDepth 40000

attribute [local semireducible] Rat.add Rat.mul Rat.sub Rat.inv

namespace BelugaBVP

variable {α : Type} [LinearOrderedField α]

/-- A numeric vector (a 1-d numpy array). -/
abbrev Vec (α : Type) := List α

/-- A numeric 2-d array of shape `(n, m)`, stored as its list of `m` columns
(the source keeps `y[:, i]` as the state at mesh node `i`). -/
abbrev Grid (α : Type) := List (List α)

/-- Elementwise vector sum. -/
def vadd (a b : Vec α) : Vec α := List.zipWith (· + ·) a b

/-- Elementwise vector difference. -/
def vsub (a b : Vec α) : Vec α := List.zipWith (· - ·) a b

/-- Scalar times vector. -/
def smul (c : α) (a : Vec α) : Vec α := a.map (c * ·)

/-- Dot product, `np.dot` on equal-length 1-d arrays. -/
def dot (a b : Vec α) : α := (List.zipWith (· * ·) a b).sum

/-- `np.diff x`: the list of consecutive differences `x[i+1] - x[i]`. -/
def diff (x : List α) : List α := List.zipWith (· - ·) x.tail x

/-- The list of consecutive pairs `(l[i], l[i+1])`; used to express numpy's
paired slices `l[:-1]`, `l[1:]` in one pass. -/
def intervals {β : Type} (l : List β) : List (β × β) := List.zipWith Prod.mk l l.tail

theorem length_diff (x : List α) : (diff x).length = x.length - 1 := by
  simp [diff, List.length_zipWith, List.length_tail]

theorem length_intervals {β : Type} (l : List β) :
    (intervals l).length = l.length - 1 := by
  simp [intervals, List.length_zipWith, List.length_tail]

theorem getElem_intervals {β : Type} (l : List β) (i : ℕ)
    (h : i < (intervals l).length) (h1 : i < l.length) (h2 : i + 1 < l.length) :
    (intervals l)[i] = (l[i], l[i + 1]) := by
  have h' : i < l.tail.length := by simp [length_intervals] at h; simp; omega
  simp [intervals, List.getElem_zipWith, List.getElem_tail]

theorem getElem_diff (x : List α) (i : ℕ) (h : i < (diff x).length)
    (h1 : i + 1 < x.length) (h2 : i < x.length) :
    (diff x)[i] = x[i + 1] - x[i] := by
  have h' : i < x.tail.length := by simp [length_diff] at h; simp; omega
  simp [diff, List.getElem_zipWith, List.getElem_tail]

/-! ## Mesh insertion (`modify_mesh`, source lines 766-798) -/

/-- The midpoint node `0.5 * (x[i] + x[i+1])` inserted for an interval of
`insert_1`.  Out-of-range indices read a junk `0` (the source would raise);
theorems assume indices are in range. -/
def midPt (x : List α) (i : ℕ) : α := (x.getD i 0 + x.getD (i + 1) 0) / 2

/-- The left third node `(2 * x[i] + x[i+1]) / 3` inserted for an interval of
`insert_2`. -/
def thirdL (x : List α) (i : ℕ) : α := (2 * x.getD i 0 + x.getD (i + 1) 0) / 3

/-- The right third node `(x[i] + 2 * x[i+1]) / 3` inserted for an interval of
`insert_2`. -/
def thirdR (x : List α) (i : ℕ) : α := (x.getD i 0 + 2 * x.getD (i + 1) 0) / 3

/-- The new nodes scheduled by `modify_mesh`: for each interval index in
`insert_1` its midpoint, and for each index in `insert_2` the two third
points, in the order the source stacks them. -/
def insertedNodes (x : List α) (insert_1 insert_2 : List ℕ) : List α :=
  insert_1.map (midPt x) ++ insert_2.map (thirdL x) ++ insert_2.map (thirdR x)

/-- `modify_mesh x insert_1 insert_2`: stack the old nodes with the scheduled
new nodes and sort ascending (the source's `np.sort(np.hstack(...))`). -/
def modify_mesh (x : List α) (insert_1 insert_2 : List ℕ) : List α :=
  List.insertionSort (· ≤ ·) (x ++ insertedNodes x insert_1 insert_2)

/-! ## Interval classification (`solve_bvp`, source lines 1281-1283)

`np.nonzero` of a boolean mask over the per-interval rms estimates returns the
indices satisfying the mask, in increasing order.  `insert1Of`/`insert2Of`
classify against a given list of rms values exactly as the source masks
`(rms_res > tol) & (rms_res < 100 * tol)` and `rms_res >= 100 * tol`. -/

/-- Indices of intervals that receive one midpoint node:
`tol < rms i < 100 * tol`. -/
def insert1Of (tol : α) (rms : List α) : List ℕ :=
  (List.range rms.length).filter fun i =>
    decide (tol < rms.getD i 0 ∧ rms.getD i 0 < 100 * tol)

/-- Indices of intervals that receive two nodes: `rms i ≥ 100 * tol`. -/
def insert2Of (tol : α) (rms : List α) : List ℕ :=
  (List.range rms.length).filter fun i => decide (100 * tol ≤ rms.getD i 0)

/-- Three-list `zipWith`, truncating at the shortest list. -/
def zipWith3 {β γ δ ε : Type} (g : β → γ → δ → ε) :
    List β → List γ → List δ → List ε
  | b :: bs, c :: cs, d :: ds => g b c d :: zipWith3 g bs cs ds
  | _, _, _ => []

/-- Four-list `zipWith`, truncating at the shortest list. -/
def zipWith4 {β γ δ ε ζ : Type} (g : β → γ → δ → ε → ζ) :
    List β → List γ → List δ → List ε → List ζ
  | b :: bs, c :: cs, d :: ds, e :: es => g b c d e :: zipWith4 g bs cs ds es
  | _, _, _, _ => []

theorem length_zipWith3 {β γ δ ε : Type} (g : β → γ → δ → ε)
    (bs : List β) (cs : List γ) (ds : List δ) :
    (zipWith3 g bs cs ds).length = min bs.length (min cs.length ds.length) := by
  induction bs generalizing cs ds with
  | nil => simp [zipWith3]
  | cons b bs ih =>
    cases cs with
    | nil => simp [zipWith3]
    | cons c cs =>
      cases ds with
      | nil => simp [zipWith3]
      | cons d ds => simp [zipWith3, ih]; omega

theorem length_zipWith4 {β γ δ ε ζ : Type} (g : β → γ → δ → ε → ζ)
    (bs : List β) (cs : List γ) (ds : List δ) (es : List ε) :
    (zipWith4 g bs cs ds es).length =
      min bs.length (min cs.length (min ds.length es.length)) := by
  induction bs generalizing cs ds es with
  | nil => simp [zipWith4]
  | cons b bs ih =>
    cases cs with
    | nil => simp [zipWith4]
    | cons c cs =>
      cases ds with
      | nil => simp [zipWith4]
      | cons d ds =>
        cases es with
        | nil => simp [zipWith4]
        | cons e es => simp [zipWith4, ih]; omega

theorem getElem_zipWith3 {β γ δ ε : Type} {g : β → γ → δ → ε}
    {bs : List β} {cs : List γ} {ds : List δ} {i : ℕ}
    (h : i < (zipWith3 g bs cs ds).length) (hb : i < bs.length)
    (hc : i < cs.length) (hd : i < ds.length) :
    (zipWith3 g bs cs ds)[i] = g bs[i] cs[i] ds[i] := by
  induction bs generalizing cs ds i with
  | nil => simp [zipWith3] at h
  | cons b bs ih =>
    cases cs with
    | nil => simp [zipWith3] at h
    | cons c cs =>
      cases ds with
      | nil => simp [zipWith3] at h
      | cons d ds =>
        cases i with
        | zero => simp [zipWith3]
        | succ i =>
          simp only [zipWith3, List.getElem_cons_succ]
          exact ih (by simpa [zipWith3] using h) (by simp at hb; omega)
            (by simp at hc; omega) (by simp at hd; omega)

theorem getElem_zipWith4 {β γ δ ε ζ : Type} {g : β → γ → δ → ε → ζ}
    {bs : List β} {cs : List γ} {ds : List δ} {es : List ε} {i : ℕ}
    (h : i < (zipWith4 g bs cs ds es).length) (hb : i < bs.length)
    (hc : i < cs.length) (hd : i < ds.length) (hee : i < es.length) :
    (zipWith4 g bs cs ds es)[i] = g bs[i] cs[i] ds[i] es[i] := by
  induction bs generalizing cs ds es i with
  | nil => simp [zipWith4] at h
  | cons b bs ih =>
    cases cs with
    | nil => simp [zipWith4] at h
    | cons c cs =>
      cases ds with
      | nil => simp [zipWith4] at h
      | cons d ds =>
        cases es with
        | nil => simp [zipWith4] at h
        | cons e es =>
          cases i with
          | zero => simp [zipWith4]
          | succ i =>
            simp only [zipWith4, List.getElem_cons_succ]
            exact ih (by simpa [zipWith4] using h) (by simp at hb; omega)
              (by simp at hc; omega) (by simp at hd; omega)
              (by simp at hee; omega)

/-- `t` lies strictly inside mesh interval `i`, i.e. in `(x[i], x[i+1])`. -/
def insideI (x : List α) (i : ℕ) (t : α) : Prop :=
  x.getD i 0 < t ∧ t < x.getD (i + 1) 0

instance (x : List α) (i : ℕ) (t : α) : Decidable (insideI x i t) := by
  unfold insideI; infer_instance

/-! ### Geometry of inserted nodes -/

theorem sorted_getElem_lt {x : List α} (hx : List.Sorted (· < ·) x) {i j : ℕ}
    (hij : i < j) (hj : j < x.length) (hi : i < x.length) : x[i] < x[j] := by
  exact List.pairwise_iff_getElem.mp hx i j hi hj hij

theorem sorted_getElem_le {x : List α} (hx : List.Sorted (· < ·) x) {i j : ℕ}
    (hij : i ≤ j) (hj : j < x.length) (hi : i < x.length) : x[i] ≤ x[j] := by
  rcases lt_or_eq_of_le hij with h | h
  · exact le_of_lt (sorted_getElem_lt hx h hj hi)
  · subst h; exact le_refl _

theorem midPt_inside {x : List α} (hx : List.Sorted (· < ·) x) {i : ℕ}
    (hi : i + 1 < x.length) : insideI x i (midPt x i) := by
  have hlt : x.getD i 0 < x.getD (i + 1) 0 := by
    rw [List.getD_eq_getElem x 0 (by omega), List.getD_eq_getElem x 0 hi]
    exact sorted_getElem_lt hx (by omega) hi (by omega)
  constructor
  · unfold midPt; linarith
  · unfold midPt; linarith

theorem thirdL_inside {x : List α} (hx : List.Sorted (· < ·) x) {i : ℕ}
    (hi : i + 1 < x.length) : insideI x i (thirdL x i) := by
  have hlt : x.getD i 0 < x.getD (i + 1) 0 := by
    rw [List.getD_eq_getElem x 0 (by omega), List.getD_eq_getElem x 0 hi]
    exact sorted_getElem_lt hx (by omega) hi (by omega)
  constructor
  · unfold thirdL; linarith
  · unfold thirdL; linarith

theorem thirdR_inside {x : List α} (hx : List.Sorted (· < ·) x) {i : ℕ}
    (hi : i + 1 < x.length) : insideI x i (thirdR x i) := by
  have hlt : x.getD i 0 < x.getD (i + 1) 0 := by
    rw [List.getD_eq_getElem x 0 (by omega), List.getD_eq_getElem x 0 hi]
    exact sorted_getElem_lt hx (by omega) hi (by omega)
  constructor
  · unfold thirdR; linarith
  · unfold thirdR; linarith

theorem thirdL_lt_thirdR {x : List α} (hx : List.Sorted (· < ·) x) {i : ℕ}
    (hi : i + 1 < x.length) : thirdL x i < thirdR x i := by
  have hlt : x.getD i 0 < x.getD (i + 1) 0 := by
    rw [List.getD_eq_getElem x 0 (by omega), List.getD_eq_getElem x 0 hi]
    exact sorted_getElem_lt hx (by omega) hi (by omega)
  unfold thirdL thirdR; linarith

/-- A point strictly inside one mesh interval is strictly inside no other:
intervals of a strictly increasing mesh have disjoint interiors. -/
theorem insideI_unique {x : List α} (hx : List.Sorted (· < ·) x) {i j : ℕ}
    (hi : i + 1 < x.length) (hj : j + 1 < x.length) {t : α}
    (h1 : insideI x i t) (h2 : insideI x j t) : i = j := by
  by_contra hne
  rcases Nat.lt_or_ge i j with h | h
  · have : x.getD (i + 1) 0 ≤ x.getD j 0 := by
      rw [List.getD_eq_getElem x 0 hi, List.getD_eq_getElem x 0 (by omega)]
      exact sorted_getElem_le hx (by omega) (by omega) (by omega)
    exact absurd (lt_trans (lt_of_lt_of_le h1.2 this) h2.1) (lt_irrefl t)
  · have hij : j < i := by omega
    have : x.getD (j + 1) 0 ≤ x.getD i 0 := by
      rw [List.getD_eq_getElem x 0 hj, List.getD_eq_getElem x 0 (by omega)]
      exact sorted_getElem_le hx (by omega) (by omega) (by omega)
    exact absurd (lt_trans (lt_of_lt_of_le h2.2 this) h1.1) (lt_irrefl t)

/-- No existing mesh node lies strictly inside a mesh interval. -/
theorem node_not_inside {x : List α} (hx : List.Sorted (· < ·) x) {i l : ℕ}
    (hi : i + 1 < x.length) (hl : l < x.length) : ¬ insideI x i (x[l]) := by
  rintro ⟨h1, h2⟩
  rw [List.getD_eq_getElem x 0 (by omega)] at h1
  rw [List.getD_eq_getElem x 0 hi] at h2
  have hil : i < l := by
    by_contra h
    have hii : i < x.length := by omega
    have hle : x[l] ≤ x[i] := sorted_getElem_le hx (by omega) hii (by omega)
    exact absurd (lt_of_le_of_lt hle h1) (lt_irrefl _)
  have hli : l < i + 1 := by
    by_contra h
    exact absurd (lt_of_lt_of_le h2 (sorted_getElem_le hx (by omega) hl (by omega)))
      (lt_irrefl _)
  omega

/-- Membership in `insert1Of`. -/
theorem mem_insert1Of {tol : α} {rms : List α} {i : ℕ} :
    i ∈ insert1Of tol rms ↔
      i < rms.length ∧ tol < rms.getD i 0 ∧ rms.getD i 0 < 100 * tol := by
  simp [insert1Of, List.mem_filter, List.mem_range, and_assoc]

/-- Membership in `insert2Of`. -/
theorem mem_insert2Of {tol : α} {rms : List α} {i : ℕ} :
    i ∈ insert2Of tol rms ↔ i < rms.length ∧ 100 * tol ≤ rms.getD i 0 := by
  simp [insert2Of, List.mem_filter, List.mem_range]

theorem nodup_insert1Of (tol : α) (rms : List α) : (insert1Of tol rms).Nodup :=
  (List.nodup_range _).filter _

theorem nodup_insert2Of (tol : α) (rms : List α) : (insert2Of tol rms).Nodup :=
  (List.nodup_range _).filter _

theorem disjoint_insertOf (tol : α) (rms : List α) :
    (insert1Of tol rms).Disjoint (insert2Of tol rms) := by
  rw [List.disjoint_left]
  intro i h1 h2
  rw [mem_insert1Of] at h1
  rw [mem_insert2Of] at h2
  exact absurd (lt_of_le_of_lt h2.2 h1.2.2) (lt_irrefl _)

theorem mem_insertedNodes {x : List α} {i1 i2 : List ℕ} {a : α} :
    a ∈ insertedNodes x i1 i2 ↔
      (∃ i ∈ i1, midPt x i = a) ∨ (∃ i ∈ i2, thirdL x i = a) ∨
      (∃ i ∈ i2, thirdR x i = a) := by
  simp [insertedNodes, List.mem_append, or_assoc]

theorem nodup_insertedNodes {x : List α} {i1 i2 : List ℕ}
    (hx : List.Sorted (· < ·) x)
    (h1v : ∀ i ∈ i1, i + 1 < x.length) (h2v : ∀ i ∈ i2, i + 1 < x.length)
    (h1n : i1.Nodup) (h2n : i2.Nodup) (hd : i1.Disjoint i2) :
    (insertedNodes x i1 i2).Nodup := by
  have hmid : (i1.map (midPt x)).Nodup := by
    refine h1n.map_on ?_
    intro i hi j hj hf
    exact insideI_unique hx (h1v i hi) (h1v j hj) (midPt_inside hx (h1v i hi))
      (hf ▸ midPt_inside hx (h1v j hj))
  have hL : (i2.map (thirdL x)).Nodup := by
    refine h2n.map_on ?_
    intro i hi j hj hf
    exact insideI_unique hx (h2v i hi) (h2v j hj) (thirdL_inside hx (h2v i hi))
      (hf ▸ thirdL_inside hx (h2v j hj))
  have hR : (i2.map (thirdR x)).Nodup := by
    refine h2n.map_on ?_
    intro i hi j hj hf
    exact insideI_unique hx (h2v i hi) (h2v j hj) (thirdR_inside hx (h2v i hi))
      (hf ▸ thirdR_inside hx (h2v j hj))
  have hdLR : (i2.map (thirdL x)).Disjoint (i2.map (thirdR x)) := by
    rw [List.disjoint_left]
    rintro a haL haR
    obtain ⟨i, hi, rfl⟩ := List.mem_map.mp haL
    obtain ⟨j, hj, hji⟩ := List.mem_map.mp haR
    have hij : j = i := insideI_unique hx (h2v j hj) (h2v i hi)
      (hji ▸ thirdR_inside hx (h2v j hj)) (thirdL_inside hx (h2v i hi))
    subst hij
    exact absurd hji (ne_of_gt (thirdL_lt_thirdR hx (h2v j hj)))
  have hdM : (i1.map (midPt x)).Disjoint (i2.map (thirdL x) ++ i2.map (thirdR x)) := by
    rw [List.disjoint_left]
    rintro a haM haT
    obtain ⟨i, hi, rfl⟩ := List.mem_map.mp haM
    rcases List.mem_append.mp haT with hT | hT
    · obtain ⟨j, hj, hji⟩ := List.mem_map.mp hT
      have hij : j = i := insideI_unique hx (h2v j hj) (h1v i hi)
        (hji ▸ thirdL_inside hx (h2v j hj)) (midPt_inside hx (h1v i hi))
      subst hij
      exact hd hi hj
    · obtain ⟨j, hj, hji⟩ := List.mem_map.mp hT
      have hij : j = i := insideI_unique hx (h2v j hj) (h1v i hi)
        (hji ▸ thirdR_inside hx (h2v j hj)) (midPt_inside hx (h1v i hi))
      subst hij
      exact hd hi hj
  unfold insertedNodes
  rw [List.append_assoc, List.nodup_append]
  exact ⟨hmid, List.nodup_append.mpr ⟨hL, hR, hdLR⟩, hdM⟩

theorem nodup_mesh_with_inserted {x : List α} {i1 i2 : List ℕ}
    (hx : List.Sorted (· < ·) x)
    (h1v : ∀ i ∈ i1, i + 1 < x.length) (h2v : ∀ i ∈ i2, i + 1 < x.length)
    (h1n : i1.Nodup) (h2n : i2.Nodup) (hd : i1.Disjoint i2) :
    (x ++ insertedNodes x i1 i2).Nodup := by
  rw [List.nodup_append]
  refine ⟨hx.nodup, nodup_insertedNodes hx h1v h2v h1n h2n hd, ?_⟩
  rw [List.disjoint_left]
  intro a hax hains
  obtain ⟨l, hl, rfl⟩ := List.mem_iff_getElem.mp hax
  rcases mem_insertedNodes.mp hains with ⟨i, hi, hfi⟩ | ⟨i, hi, hfi⟩ | ⟨i, hi, hfi⟩
  · exact node_not_inside hx (h1v i hi) hl (hfi ▸ midPt_inside hx (h1v i hi))
  · exact node_not_inside hx (h2v i hi) hl (hfi ▸ thirdL_inside hx (h2v i hi))
  · exact node_not_inside hx (h2v i hi) hl (hfi ▸ thirdR_inside hx (h2v i hi))

theorem modify_mesh_perm (x : List α) (i1 i2 : List ℕ) :
    (modify_mesh x i1 i2).Perm (x ++ insertedNodes x i1 i2) :=
  List.perm_insertionSort _ _

/-- `modify_mesh` never removes a node. -/
theorem mem_modify_mesh_of_mem {x : List α} {i1 i2 : List ℕ} {a : α}
    (ha : a ∈ x) : a ∈ modify_mesh x i1 i2 :=
  (modify_mesh_perm x i1 i2).mem_iff.mpr (List.mem_append.mpr (Or.inl ha))

/-- The refined mesh has exactly `|x| + |insert_1| + 2 * |insert_2|` nodes. -/
theorem modify_mesh_length (x : List α) (i1 i2 : List ℕ) :
    (modify_mesh x i1 i2).length = x.length + i1.length + 2 * i2.length := by
  rw [(modify_mesh_perm x i1 i2).length_eq]
  simp [insertedNodes]
  omega

theorem modify_mesh_sorted_le (x : List α) (i1 i2 : List ℕ) :
    List.Sorted (· ≤ ·) (modify_mesh x i1 i2) :=
  List.sorted_insertionSort _ _

/-- With in-range, duplicate-free, disjoint insertion sets the refined mesh is
again strictly increasing. -/
theorem modify_mesh_sorted_lt {x : List α} {i1 i2 : List ℕ}
    (hx : List.Sorted (· < ·) x)
    (h1v : ∀ i ∈ i1, i + 1 < x.length) (h2v : ∀ i ∈ i2, i + 1 < x.length)
    (h1n : i1.Nodup) (h2n : i2.Nodup) (hd : i1.Disjoint i2) :
    List.Sorted (· < ·) (modify_mesh x i1 i2) := by
  refine (modify_mesh_sorted_le x i1 i2).lt_of_le ?_
  exact (modify_mesh_perm x i1 i2).nodup_iff.mpr
    (nodup_mesh_with_inserted hx h1v h2v h1n h2n hd)

/-- Filtering a list of per-interval nodes for membership in the interior of
interval `i`: when every listed interval owns its node and the list has no
duplicates, exactly the node of interval `i` survives. -/
theorem filter_map_insideI {x : List α} {js : List ℕ} {f : ℕ → α} {i : ℕ}
    (hn : js.Nodup)
    (hiff : ∀ j ∈ js, (insideI x i (f j) ↔ j = i)) :
    (js.map f).filter (fun t => decide (insideI x i t)) =
      if i ∈ js then [f i] else [] := by
  induction js with
  | nil => simp
  | cons j js ih =>
    have hj := hiff j (List.mem_cons_self j js)
    have hnj : js.Nodup := (List.nodup_cons.mp hn).2
    have hiff' : ∀ k ∈ js, (insideI x i (f k) ↔ k = i) := fun k hk =>
      hiff k (List.mem_cons_of_mem j hk)
    by_cases hji : j = i
    · subst hji
      have hnot : j ∉ js := (List.nodup_cons.mp hn).1
      have hrest : (js.map f).filter (fun t => decide (insideI x j t)) = [] := by
        rw [ih hnj hiff']
        simp [hnot]
      simp only [List.map_cons, List.filter_cons, hrest]
      rw [decide_eq_true_iff.mpr (hj.mpr rfl)]
      simp
    · have hnotin : ¬ insideI x i (f j) := fun h => hji (hj.mp h)
      simp only [List.map_cons, List.filter_cons]
      rw [decide_eq_false hnotin]
      rw [ih hnj hiff']
      simp only [List.mem_cons]
      have : (i ∈ js ∨ i = j ∨ i ∈ js) ↔ (i ∈ js) := by
        constructor
        · rintro (h | h | h) <;> first | exact h | exact absurd h.symm hji
        · exact fun h => Or.inl h
      by_cases him : i ∈ js
      · simp [him, Ne.symm hji]
      · simp [him, Ne.symm hji]

/-- The three groups of inserted nodes that land strictly inside interval `i`,
for insertion sets produced by the rms classification. -/
theorem insertedNodes_filter_inside (tol : α) (rms : List α) {x : List α}
    (hx : List.Sorted (· < ·) x) (hlen : rms.length + 1 = x.length)
    {i : ℕ} (hi : i < rms.length) :
    (insertedNodes x (insert1Of tol rms) (insert2Of tol rms)).filter
        (fun t => decide (insideI x i t)) =
      ((if i ∈ insert1Of tol rms then [midPt x i] else []) ++
       (if i ∈ insert2Of tol rms then [thirdL x i] else []) ++
       (if i ∈ insert2Of tol rms then [thirdR x i] else [])) := by
  have hval : ∀ j, j < rms.length → j + 1 < x.length := by omega
  have hiv : i + 1 < x.length := hval i hi
  have hmidIff : ∀ j ∈ insert1Of tol rms, (insideI x i (midPt x j) ↔ j = i) := by
    intro j hj
    have hjv := hval j (mem_insert1Of.mp hj).1
    constructor
    · intro h
      exact insideI_unique hx hjv hiv (midPt_inside hx hjv) h
    · rintro rfl
      exact midPt_inside hx hjv
  have hLIff : ∀ j ∈ insert2Of tol rms, (insideI x i (thirdL x j) ↔ j = i) := by
    intro j hj
    have hjv := hval j (mem_insert2Of.mp hj).1
    constructor
    · intro h
      exact insideI_unique hx hjv hiv (thirdL_inside hx hjv) h
    · rintro rfl
      exact thirdL_inside hx hjv
  have hRIff : ∀ j ∈ insert2Of tol rms, (insideI x i (thirdR x j) ↔ j = i) := by
    intro j hj
    have hjv := hval j (mem_insert2Of.mp hj).1
    constructor
    · intro h
      exact insideI_unique hx hjv hiv (thirdR_inside hx hjv) h
    · rintro rfl
      exact thirdR_inside hx hjv
  unfold insertedNodes
  rw [List.filter_append, List.filter_append]
  rw [filter_map_insideI (nodup_insert1Of tol rms) hmidIff,
    filter_map_insideI (nodup_insert2Of tol rms) hLIff,
    filter_map_insideI (nodup_insert2Of tol rms) hRIff]

/-- C5: after each Newton call the intervals are classified by their estimated
rms residual: an interval with `rms i ≤ tol` receives no new node, one with
`tol < rms i < 100 * tol` receives exactly the midpoint node, one with
`rms i ≥ 100 * tol` receives exactly the two third points, the two insertion
sets are disjoint, and together they cover exactly the intervals with
`rms i > tol` (source lines 1281-1283 and 793-798).  `0 < tol` holds for every
solve because the driver floors `tol` at `100 * EPS` (line 1209). -/
theorem C5_interval_classification {α : Type} [LinearOrderedField α]
    {tol : α} (htol : 0 < tol) (rms : List α) {x : List α}
    (hx : List.Sorted (· < ·) x) (hlen : rms.length + 1 = x.length) :
    (insert1Of tol rms).Disjoint (insert2Of tol rms) ∧
    (∀ i < rms.length,
      ((i ∈ insert1Of tol rms ∨ i ∈ insert2Of tol rms) ↔ tol < rms.getD i 0)) ∧
    (∀ i < rms.length, rms.getD i 0 ≤ tol →
      (insertedNodes x (insert1Of tol rms) (insert2Of tol rms)).filter
        (fun t => decide (insideI x i t)) = []) ∧
    (∀ i < rms.length, tol < rms.getD i 0 → rms.getD i 0 < 100 * tol →
      (insertedNodes x (insert1Of tol rms) (insert2Of tol rms)).filter
        (fun t => decide (insideI x i t)) = [midPt x i]) ∧
    (∀ i < rms.length, 100 * tol ≤ rms.getD i 0 →
      (insertedNodes x (insert1Of tol rms) (insert2Of tol rms)).filter
        (fun t => decide (insideI x i t)) = [thirdL x i, thirdR x i]) := by
  refine ⟨disjoint_insertOf tol rms, ?_, ?_, ?_, ?_⟩
  · intro i hi
    rw [mem_insert1Of, mem_insert2Of]
    constructor
    · rintro (⟨_, h, _⟩ | ⟨_, h⟩)
      · exact h
      · linarith
    · intro h
      by_cases h100 : rms.getD i 0 < 100 * tol
      · exact Or.inl ⟨hi, h, h100⟩
      · exact Or.inr ⟨hi, le_of_not_lt h100⟩
  · intro i hi hle
    rw [insertedNodes_filter_inside tol rms hx hlen hi]
    have h1 : i ∉ insert1Of tol rms := fun h =>
      absurd hle (not_le_of_lt (mem_insert1Of.mp h).2.1)
    have h2 : i ∉ insert2Of tol rms := fun h => by
      have h100 := (mem_insert2Of.mp h).2
      linarith
    simp [h1, h2]
  · intro i hi hgt hlt
    rw [insertedNodes_filter_inside tol rms hx hlen hi]
    have h1 : i ∈ insert1Of tol rms := mem_insert1Of.mpr ⟨hi, hgt, hlt⟩
    have h2 : i ∉ insert2Of tol rms := fun h =>
      absurd hlt (not_lt_of_le (mem_insert2Of.mp h).2)
    simp [h1, h2]
  · intro i hi hge
    rw [insertedNodes_filter_inside tol rms hx hlen hi]
    have h1 : i ∉ insert1Of tol rms := fun h =>
      absurd hge (not_le_of_lt (mem_insert1Of.mp h).2.2)
    have h2 : i ∈ insert2Of tol rms := mem_insert2Of.mpr ⟨hi, hge⟩
    simp [h1, h2]

/-- C8: for a strictly increasing mesh, `modify_mesh` with both insertion sets
empty returns the mesh unchanged (source lines 766-798: sorting the stack of
the old nodes with nothing appended). -/
theorem C8_modify_mesh_empty_insert {α : Type} [LinearOrderedField α]
    {x : List α} (hx : List.Sorted (· < ·) x) : modify_mesh x [] [] = x := by
  unfold modify_mesh insertedNodes
  simp only [List.map_nil, List.append_nil]
  exact List.Sorted.insertionSort_eq (hx.imp fun h => le_of_lt h)

/-- Witness for C8 at a concrete strictly increasing rational mesh. -/
theorem C8_witness : modify_mesh ([0, 1, 5/2] : List ℚ) [] [] = [0, 1, 5/2] :=
  C8_modify_mesh_empty_insert (by decide)

/-- Witness for C5 at `tol = 1/100` and the concrete rms values
`[1/200, 1/50, 2]` over the mesh `[0, 1, 2, 3]`: interval `0` (rms below tol)
receives nothing, interval `1` (rms in the `(tol, 100 tol)` band) exactly its
midpoint, interval `2` (rms at least `100 tol`) exactly its two third
points. -/
theorem C5_witness :
    (insertedNodes ([0, 1, 2, 3] : List ℚ)
        (insert1Of ((1:ℚ)/100) [1/200, 1/50, 2]) (insert2Of ((1:ℚ)/100) [1/200, 1/50, 2])).filter
        (fun t => decide (insideI ([0, 1, 2, 3] : List ℚ) 0 t)) = [] ∧
    (insertedNodes ([0, 1, 2, 3] : List ℚ)
        (insert1Of ((1:ℚ)/100) [1/200, 1/50, 2]) (insert2Of ((1:ℚ)/100) [1/200, 1/50, 2])).filter
        (fun t => decide (insideI ([0, 1, 2, 3] : List ℚ) 1 t)) =
        [midPt ([0, 1, 2, 3] : List ℚ) 1] ∧
    (insertedNodes ([0, 1, 2, 3] : List ℚ)
        (insert1Of ((1:ℚ)/100) [1/200, 1/50, 2]) (insert2Of ((1:ℚ)/100) [1/200, 1/50, 2])).filter
        (fun t => decide (insideI ([0, 1, 2, 3] : List ℚ) 2 t)) =
        [thirdL ([0, 1, 2, 3] : List ℚ) 2, thirdR ([0, 1, 2, 3] : List ℚ) 2] := by
  have h := C5_interval_classification (show (0:ℚ) < 1/100 by norm_num)
    [1/200, 1/50, 2]
    (show List.Sorted (· < ·) ([0, 1, 2, 3] : List ℚ) by decide) (by decide)
  refine ⟨h.2.2.1 0 (by decide) (by norm_num), ?_, ?_⟩
  · exact h.2.2.2.1 1 (by decide) (by norm_num) (by norm_num)
  · exact h.2.2.2.2 2 (by decide) (by norm_num)

/-! ## Collocation evaluator (`collocation_fun`, source lines 394-432)

The user rhs is modelled columnwise: `fcol xi yi p` is the column of
`fun(x, y, p)` at abscissa `xi` with state column `yi` (the shape contract of
§6.1 makes the vectorized call equal to the columnwise one).  `0.5` and
`0.125` are the exact `1/2` and `1/8`. -/

/-- `f = fun(x, y, p)` evaluated columnwise at the mesh nodes
(source line 425). -/
def colloc_f (fcol : α → Vec α → Vec α → Vec α) (y : Grid α) (p : Vec α)
    (x : List α) : Grid α :=
  List.zipWith (fun xi yi => fcol xi yi p) x y

/-- `y_middle = 0.5 (y[:,1:] + y[:,:-1]) - 0.125 h (f[:,1:] - f[:,:-1])`
(source lines 426-427). -/
def colloc_ymid (fcol : α → Vec α → Vec α → Vec α) (y : Grid α) (p : Vec α)
    (x h : List α) : Grid α :=
  zipWith3
    (fun yp fp hi =>
      vsub (smul (1/2) (vadd yp.2 yp.1)) (smul (1/8 * hi) (vsub fp.2 fp.1)))
    (intervals y) (intervals (colloc_f fcol y p x)) h

/-- The interval midpoints `x[:-1] + 0.5 h` (source line 428, also line 437). -/
def xmidOf (x h : List α) : List α :=
  List.zipWith (fun xi hi => xi + 1/2 * hi) x h

/-- `f_middle = fun(x[:-1] + 0.5 h, y_middle, p)` (source line 428). -/
def colloc_fmid (fcol : α → Vec α → Vec α → Vec α) (y : Grid α) (p : Vec α)
    (x h : List α) : Grid α :=
  List.zipWith (fun xm ym => fcol xm ym p) (xmidOf x h) (colloc_ymid fcol y p x h)

/-- `col_res = y[:,1:] - y[:,:-1] - h/6 (f[:,:-1] + f[:,1:] + 4 f_middle)`
(source lines 429-430). -/
def colloc_res (fcol : α → Vec α → Vec α → Vec α) (y : Grid α) (p : Vec α)
    (x h : List α) : Grid α :=
  zipWith4
    (fun yp fp fm hi =>
      vsub (vsub yp.2 yp.1) (smul (hi/6) (vadd (vadd fp.1 fp.2) (smul 4 fm))))
    (intervals y) (intervals (colloc_f fcol y p x)) (colloc_fmid fcol y p x h) h

/-- `collocation_fun`: returns `(col_res, y_middle, f, f_middle)` in the
source's order (lines 425-432). -/
def collocation_fun (fcol : α → Vec α → Vec α → Vec α) (y : Grid α) (p : Vec α)
    (x h : List α) : Grid α × Grid α × Grid α × Grid α :=
  (colloc_res fcol y p x h, colloc_ymid fcol y p x h,
    colloc_f fcol y p x, colloc_fmid fcol y p x h)

/-- Written from the spec (§4.2): `F = f̂(X, Y, P)` at node `i`. -/
def spec_F (fcol : α → Vec α → Vec α → Vec α) (x : List α) (y : Grid α)
    (p : Vec α) (i : ℕ) : Vec α :=
  fcol (x.getD i 0) (y.getD i []) p

/-- Written from the spec (§4.2):
`Y_mid = ½(Y[:,1:] + Y[:,:-1]) - (H/8)(F[:,1:] - F[:,:-1])` at interval `i`. -/
def spec_Ymid (fcol : α → Vec α → Vec α → Vec α) (x : List α) (y : Grid α)
    (p : Vec α) (h : List α) (i : ℕ) : Vec α :=
  vsub (smul (1/2) (vadd (y.getD (i + 1) []) (y.getD i [])))
    (smul (1/8 * h.getD i 0)
      (vsub (spec_F fcol x y p (i + 1)) (spec_F fcol x y p i)))

/-- Written from the spec (§4.2): `F_mid = f̂(X[:-1] + H/2, Y_mid, P)` at
interval `i`. -/
def spec_Fmid (fcol : α → Vec α → Vec α → Vec α) (x : List α) (y : Grid α)
    (p : Vec α) (h : List α) (i : ℕ) : Vec α :=
  fcol (x.getD i 0 + 1/2 * h.getD i 0) (spec_Ymid fcol x y p h i) p

/-- Written from the spec (§4.2):
`R_col = Y[:,1:] - Y[:,:-1] - (H/6)(F[:,:-1] + F[:,1:] + 4 F_mid)` at
interval `i`. -/
def spec_Rcol (fcol : α → Vec α → Vec α → Vec α) (x : List α) (y : Grid α)
    (p : Vec α) (h : List α) (i : ℕ) : Vec α :=
  vsub (vsub (y.getD (i + 1) []) (y.getD i []))
    (smul (h.getD i 0 / 6)
      (vadd (vadd (spec_F fcol x y p i) (spec_F fcol x y p (i + 1)))
        (smul 4 (spec_Fmid fcol x y p h i))))

theorem length_colloc_f (fcol : α → Vec α → Vec α → Vec α) (y : Grid α)
    (p : Vec α) (x : List α) (hy : y.length = x.length) :
    (colloc_f fcol y p x).length = x.length := by
  simp [colloc_f, List.length_zipWith, hy]

theorem getElem_colloc_f (fcol : α → Vec α → Vec α → Vec α) (y : Grid α)
    (p : Vec α) (x : List α) (hy : y.length = x.length) {i : ℕ}
    (hi : i < x.length) (hif : i < (colloc_f fcol y p x).length) :
    (colloc_f fcol y p x)[i] = spec_F fcol x y p i := by
  unfold colloc_f
  rw [List.getElem_zipWith, spec_F, List.getD_eq_getElem x 0 hi,
    List.getD_eq_getElem y [] (by omega)]

theorem getD_colloc_f (fcol : α → Vec α → Vec α → Vec α) (y : Grid α)
    (p : Vec α) (x : List α) (hy : y.length = x.length) {i : ℕ}
    (hi : i < x.length) :
    (colloc_f fcol y p x).getD i [] = spec_F fcol x y p i := by
  rw [List.getD_eq_getElem _ _ (by rw [length_colloc_f fcol y p x hy]; omega)]
  exact getElem_colloc_f fcol y p x hy hi _

theorem length_colloc_ymid (fcol : α → Vec α → Vec α → Vec α) (y : Grid α)
    (p : Vec α) (x h : List α) (hy : y.length = x.length)
    (hh : h.length + 1 = x.length) :
    (colloc_ymid fcol y p x h).length = h.length := by
  simp [colloc_ymid, length_zipWith3, length_intervals,
    length_colloc_f fcol y p x hy, hy]
  omega

theorem getD_colloc_ymid (fcol : α → Vec α → Vec α → Vec α) (y : Grid α)
    (p : Vec α) (x h : List α) (hy : y.length = x.length)
    (hh : h.length + 1 = x.length) {i : ℕ} (hi : i < h.length) :
    (colloc_ymid fcol y p x h).getD i [] = spec_Ymid fcol x y p h i := by
  have hcy : i < (colloc_ymid fcol y p x h).length := by
    rw [length_colloc_ymid fcol y p x h hy hh]; omega
  rw [List.getD_eq_getElem _ [] hcy]
  have hfl := length_colloc_f fcol y p x hy
  have hb1 : i < (intervals y).length := by rw [length_intervals]; omega
  have hb2 : i < (intervals (colloc_f fcol y p x)).length := by
    rw [length_intervals, hfl]; omega
  unfold colloc_ymid
  rw [getElem_zipWith3 _ hb1 hb2 hi,
    getElem_intervals y i hb1 (by omega) (by omega),
    getElem_intervals (colloc_f fcol y p x) i hb2 (by omega) (by omega)]
  dsimp only
  rw [getElem_colloc_f fcol y p x hy (show i < x.length by omega),
    getElem_colloc_f fcol y p x hy (show i + 1 < x.length by omega)]
  unfold spec_Ymid
  rw [List.getD_eq_getElem y [] (show i + 1 < y.length by omega),
    List.getD_eq_getElem y [] (show i < y.length by omega),
    List.getD_eq_getElem h 0 hi]

theorem length_colloc_fmid (fcol : α → Vec α → Vec α → Vec α) (y : Grid α)
    (p : Vec α) (x h : List α) (hy : y.length = x.length)
    (hh : h.length + 1 = x.length) :
    (colloc_fmid fcol y p x h).length = h.length := by
  simp [colloc_fmid, xmidOf, List.length_zipWith,
    length_colloc_ymid fcol y p x h hy hh]
  omega

theorem getD_colloc_fmid (fcol : α → Vec α → Vec α → Vec α) (y : Grid α)
    (p : Vec α) (x h : List α) (hy : y.length = x.length)
    (hh : h.length + 1 = x.length) {i : ℕ} (hi : i < h.length) :
    (colloc_fmid fcol y p x h).getD i [] = spec_Fmid fcol x y p h i := by
  have hcf : i < (colloc_fmid fcol y p x h).length := by
    rw [length_colloc_fmid fcol y p x h hy hh]; omega
  rw [List.getD_eq_getElem _ [] hcf]
  have hym : i < (colloc_ymid fcol y p x h).length := by
    rw [length_colloc_ymid fcol y p x h hy hh]; omega
  unfold colloc_fmid
  rw [List.getElem_zipWith]
  have hymid := getD_colloc_ymid fcol y p x h hy hh hi
  rw [List.getD_eq_getElem _ [] hym] at hymid
  rw [hymid]
  unfold xmidOf
  rw [List.getElem_zipWith]
  unfold spec_Fmid
  rw [List.getD_eq_getElem x 0 (by omega), List.getD_eq_getElem h 0 hi]

theorem length_colloc_res (fcol : α → Vec α → Vec α → Vec α) (y : Grid α)
    (p : Vec α) (x h : List α) (hy : y.length = x.length)
    (hh : h.length + 1 = x.length) :
    (colloc_res fcol y p x h).length = h.length := by
  simp [colloc_res, length_zipWith4, length_intervals,
    length_colloc_f fcol y p x hy, length_colloc_fmid fcol y p x h hy hh, hy]
  omega

theorem getD_colloc_res (fcol : α → Vec α → Vec α → Vec α) (y : Grid α)
    (p : Vec α) (x h : List α) (hy : y.length = x.length)
    (hh : h.length + 1 = x.length) {i : ℕ} (hi : i < h.length) :
    (colloc_res fcol y p x h).getD i [] = spec_Rcol fcol x y p h i := by
  have hcr : i < (colloc_res fcol y p x h).length := by
    rw [length_colloc_res fcol y p x h hy hh]; omega
  rw [List.getD_eq_getElem _ [] hcr]
  have hfl := length_colloc_f fcol y p x hy
  have hfm : i < (colloc_fmid fcol y p x h).length := by
    rw [length_colloc_fmid fcol y p x h hy hh]; omega
  have hb1 : i < (intervals y).length := by rw [length_intervals]; omega
  have hb2 : i < (intervals (colloc_f fcol y p x)).length := by
    rw [length_intervals, hfl]; omega
  unfold colloc_res
  rw [getElem_zipWith4 _ hb1 hb2 hfm hi,
    getElem_intervals y i hb1 (by omega) (by omega),
    getElem_intervals (colloc_f fcol y p x) i hb2 (by omega) (by omega)]
  dsimp only
  rw [getElem_colloc_f fcol y p x hy (show i < x.length by omega),
    getElem_colloc_f fcol y p x hy (show i + 1 < x.length by omega)]
  have hfmid := getD_colloc_fmid fcol y p x h hy hh hi
  rw [List.getD_eq_getElem _ [] hfm] at hfmid
  rw [hfmid]
  unfold spec_Rcol
  rw [List.getD_eq_getElem y [] (show i + 1 < y.length by omega),
    List.getD_eq_getElem y [] (show i < y.length by omega),
    List.getD_eq_getElem h 0 hi]

/-- C3: the collocation evaluator computes, in data-dependence order,
`F`, then `Y_mid` from `F`, then `F_mid` from `Y_mid`, and returns
`R_col` built from `F` and `F_mid`, each columnwise equal to the spec's
formulas (source lines 425-432 against §4.2). -/
theorem C3_collocation_formulas {α : Type} [LinearOrderedField α]
    (fcol : α → Vec α → Vec α → Vec α) (y : Grid α) (p : Vec α) (x h : List α)
    (hy : y.length = x.length) (hh : h.length + 1 = x.length) :
    (∀ i < x.length,
      (collocation_fun fcol y p x h).2.2.1.getD i [] = spec_F fcol x y p i) ∧
    (∀ i < h.length,
      (collocation_fun fcol y p x h).2.1.getD i [] = spec_Ymid fcol x y p h i) ∧
    (∀ i < h.length,
      (collocation_fun fcol y p x h).2.2.2.getD i [] = spec_Fmid fcol x y p h i) ∧
    (∀ i < h.length,
      (collocation_fun fcol y p x h).1.getD i [] = spec_Rcol fcol x y p h i) := by
  refine ⟨fun i hi => ?_, fun i hi => ?_, fun i hi => ?_, fun i hi => ?_⟩
  · exact getD_colloc_f fcol y p x hy hi
  · exact getD_colloc_ymid fcol y p x h hy hh hi
  · exact getD_colloc_fmid fcol y p x h hy hh hi
  · exact getD_colloc_res fcol y p x h hy hh hi

/-- Witness for C3 on a concrete two-node rational problem with
`fun(x, y, p) = [x + y₀]`. -/
theorem C3_witness :
    (∀ i < 2,
      (collocation_fun (fun xi yi _ => [xi + yi.getD 0 0]) [[1], [2]]
          ([] : Vec ℚ) [0, 1] [1]).2.2.1.getD i [] =
        spec_F (fun xi yi _ => [xi + yi.getD 0 0]) [0, 1] [[1], [2]] [] i) ∧
    (∀ i < 1,
      (collocation_fun (fun xi yi _ => [xi + yi.getD 0 0]) [[1], [2]]
          ([] : Vec ℚ) [0, 1] [1]).1.getD i [] =
        spec_Rcol (fun xi yi _ => [xi + yi.getD 0 0]) [0, 1] [[1], [2]] [] [1] i) := by
  have h := C3_collocation_formulas (fun xi yi _ => [xi + yi.getD 0 0])
    [[1], [2]] ([] : Vec ℚ) [0, 1] [1] (by decide) (by decide)
  exact ⟨h.1, h.2.2.2⟩

/-! ## Cubic spline reconstruction (`create_spline`, source lines 741-763) -/

/-- The coefficient quadruple `(c0, c1, c2, c3)` of one cubic segment for one
solution component, from the endpoint values `y0, y1` and endpoint derivatives
`f0, f1` over the interval width `hi`:

  slope = (y1 - y0) / hi
  t     = (f0 + f1 - 2 slope) / hi
  c0 = t / hi,  c1 = (slope - f0) / hi - t,  c2 = f0,  c3 = y0. -/
def splineCoef (y0 y1 f0 f1 hi : α) : α × α × α × α :=
  let slope := (y1 - y0) / hi
  let t := (f0 + f1 - 2 * slope) / hi
  (t / hi, (slope - f0) / hi - t, f0, y0)

/-- Evaluate a cubic segment at local offset `ξ = x - X[i]`:
`c0 ξ³ + c1 ξ² + c2 ξ + c3`. -/
def polyEval (c : α × α × α × α) (ξ : α) : α :=
  c.1 * (ξ * ξ * ξ) + c.2.1 * (ξ * ξ) + c.2.2.1 * ξ + c.2.2.2

/-- First derivative of a cubic segment at local offset `ξ`. -/
def polyDeriv (c : α × α × α × α) (ξ : α) : α :=
  3 * c.1 * (ξ * ξ) + 2 * c.2.1 * ξ + c.2.2.1

/-- `create_spline`: for each mesh interval the list of per-component cubic
coefficient quadruples, from values `y` and derivatives `yp` over widths `h`. -/
def create_spline (y yp : Grid α) (h : List α) : List (List (α × α × α × α)) :=
  zipWith3
    (fun ypair fpair hi =>
      zipWith4 (fun y0 y1 f0 f1 => splineCoef y0 y1 f0 f1 hi)
        ypair.1 ypair.2 fpair.1 fpair.2)
    (intervals y) (intervals yp) h

theorem polyEval_splineCoef_zero (y0 y1 f0 f1 hi : α) :
    polyEval (splineCoef y0 y1 f0 f1 hi) 0 = y0 := by
  simp [polyEval, splineCoef]

theorem polyDeriv_splineCoef_zero (y0 y1 f0 f1 hi : α) :
    polyDeriv (splineCoef y0 y1 f0 f1 hi) 0 = f0 := by
  simp [polyDeriv, splineCoef]

theorem polyEval_splineCoef_width (y0 y1 f0 f1 : α) {hi : α} (hne : hi ≠ 0) :
    polyEval (splineCoef y0 y1 f0 f1 hi) hi = y1 := by
  unfold polyEval splineCoef
  field_simp
  ring

theorem polyDeriv_splineCoef_width (y0 y1 f0 f1 : α) {hi : α} (hne : hi ≠ 0) :
    polyDeriv (splineCoef y0 y1 f0 f1 hi) hi = f1 := by
  unfold polyDeriv splineCoef
  field_simp
  ring

theorem length_create_spline (y yp : Grid α) (h : List α) :
    (create_spline y yp h).length =
      min (y.length - 1) (min (yp.length - 1) h.length) := by
  simp [create_spline, length_zipWith3, length_intervals]

/-- Entry `i` of `create_spline` is the componentwise coefficient list of
segment `i`. -/
theorem getElem_create_spline (y yp : Grid α) (h : List α) {i : ℕ}
    (hi : i < (create_spline y yp h).length) (hh : i < h.length)
    (hy1 : i < y.length) (hy2 : i + 1 < y.length) (hp1 : i < yp.length)
    (hp2 : i + 1 < yp.length) :
    (create_spline y yp h)[i] =
      zipWith4 (fun y0 y1 f0 f1 => splineCoef y0 y1 f0 f1 h[i])
        y[i] y[i + 1] yp[i] yp[i + 1] := by
  have hi' := hi
  rw [length_create_spline] at hi'
  have hb1 : i < (intervals y).length := by rw [length_intervals]; omega
  have hb2 : i < (intervals yp).length := by rw [length_intervals]; omega
  unfold create_spline
  rw [getElem_zipWith3 _ hb1 hb2 hh,
    getElem_intervals y i hb1 (by omega) (by omega),
    getElem_intervals yp i hb2 (by omega) (by omega)]

/-- C9: every segment of the piecewise cubic built by `create_spline` matches
the values and the first derivatives at both interval endpoints, so the spline
reproduces `y` and `y'` at every mesh node and is C¹ (source lines 741-763,
in exact arithmetic, widths taken from the strictly increasing mesh). -/
theorem C9_spline_matches_endpoints {α : Type} [LinearOrderedField α]
    (y yp : Grid α) (x : List α) (n : ℕ)
    (hx : List.Sorted (· < ·) x)
    (hy : y.length = x.length) (hyp : yp.length = x.length)
    (hcy : ∀ col ∈ y, col.length = n) (hcf : ∀ col ∈ yp, col.length = n) :
    ∀ i, i + 1 < x.length →
      ((create_spline y yp (diff x)).getD i []).map (fun c => polyEval c 0) =
          y.getD i [] ∧
      ((create_spline y yp (diff x)).getD i []).map (fun c => polyDeriv c 0) =
          yp.getD i [] ∧
      ((create_spline y yp (diff x)).getD i []).map
          (fun c => polyEval c ((diff x).getD i 0)) = y.getD (i + 1) [] ∧
      ((create_spline y yp (diff x)).getD i []).map
          (fun c => polyDeriv c ((diff x).getD i 0)) = yp.getD (i + 1) [] := by
  intro i hi
  have hdx : (diff x).length = x.length - 1 := length_diff x
  have hcs : i < (create_spline y yp (diff x)).length := by
    rw [length_create_spline, hy, hyp, hdx]; omega
  have hyi : i < y.length := by omega
  have hyi1 : i + 1 < y.length := by omega
  have hfi : i < yp.length := by omega
  have hfi1 : i + 1 < yp.length := by omega
  have hdi : i < (diff x).length := by omega
  have hhne : (diff x).getD i 0 ≠ 0 := by
    rw [List.getD_eq_getElem _ 0 hdi, getElem_diff x i hdi hi (by omega)]
    have := sorted_getElem_lt hx (show i < i + 1 by omega) hi (by omega)
    exact ne_of_gt (by linarith)
  have hlen_y_i := hcy (y[i]) (List.getElem_mem hyi)
  have hlen_y_i1 := hcy (y[i + 1]) (List.getElem_mem hyi1)
  have hlen_f_i := hcf (yp[i]) (List.getElem_mem hfi)
  have hlen_f_i1 := hcf (yp[i + 1]) (List.getElem_mem hfi1)
  rw [List.getD_eq_getElem _ [] hcs,
    getElem_create_spline y yp (diff x) hcs hdi hyi hyi1 hfi hfi1]
  rw [List.getD_eq_getElem y [] hyi, List.getD_eq_getElem y [] hyi1,
    List.getD_eq_getElem yp [] hfi, List.getD_eq_getElem yp [] hfi1]
  have hzl : (zipWith4
      (fun y0 y1 f0 f1 => splineCoef y0 y1 f0 f1 (diff x)[i])
      y[i] y[i + 1] yp[i] yp[i + 1]).length = n := by
    rw [length_zipWith4, hlen_y_i, hlen_y_i1, hlen_f_i, hlen_f_i1]
    omega
  have hgd : (diff x).getD i 0 = (diff x)[i] := List.getD_eq_getElem _ 0 hdi
  rw [List.getD_eq_getElem _ 0 hdi] at hhne
  simp only [hgd]
  refine ⟨?_, ?_, ?_, ?_⟩
  · apply List.ext_getElem
    · rw [List.length_map, hzl, hlen_y_i]
    · intro r h1 h2
      rw [List.getElem_map, getElem_zipWith4 _ (by omega) (by omega) (by omega)
        (by omega), polyEval_splineCoef_zero]
  · apply List.ext_getElem
    · rw [List.length_map, hzl, hlen_f_i]
    · intro r h1 h2
      rw [List.getElem_map, getElem_zipWith4 _ (by omega) (by omega) (by omega)
        (by omega), polyDeriv_splineCoef_zero]
  · apply List.ext_getElem
    · rw [List.length_map, hzl, hlen_y_i1]
    · intro r h1 h2
      rw [List.getElem_map, getElem_zipWith4 _ (by omega) (by omega) (by omega)
        (by omega), polyEval_splineCoef_width _ _ _ _ hhne]
  · apply List.ext_getElem
    · rw [List.length_map, hzl, hlen_f_i1]
    · intro r h1 h2
      rw [List.getElem_map, getElem_zipWith4 _ (by omega) (by omega) (by omega)
        (by omega), polyDeriv_splineCoef_width _ _ _ _ hhne]

/-- Witness for C9 on the concrete data `y = [0, 2]`, `y' = [1, 1]` over
`x = [0, 2]` (one component, one segment). -/
theorem C9_witness :
    ((create_spline ([[0], [2]] : Grid ℚ) [[1], [1]] (diff [0, 2])).getD 0 []).map
        (fun c => polyEval c 0) = [0] ∧
    ((create_spline ([[0], [2]] : Grid ℚ) [[1], [1]] (diff [0, 2])).getD 0 []).map
        (fun c => polyEval c ((diff ([0, 2] : List ℚ)).getD 0 0)) = [2] := by
  have h := C9_spline_matches_endpoints ([[0], [2]] : Grid ℚ) [[1], [1]] [0, 2] 1
    (by decide) (by decide) (by decide) (by decide) (by decide) 0 (by decide)
  exact ⟨h.1, h.2.2.1⟩

/-! ## Jacobian blocks (`construct_global_jac`, source lines 229-391)

Per-node Jacobians of `f` are `n × n` matrices stored as their list of
columns: column `j` holds the partial derivatives with respect to the `j`-th
state component (the source array `df_dy[:, j, node]`). -/

/-- An `n × n` matrix as its list of `n` columns. -/
abbrev MatC (α : Type) := List (Vec α)

/-- Matrix-vector product `M v = Σ_j v_j * col_j M`, accumulated over an
`n`-dimensional zero. -/
def matVec (M : MatC α) (v : Vec α) (n : ℕ) : Vec α :=
  (List.zipWith (fun col c => smul c col) M v).foldr vadd (List.replicate n 0)

/-- One stack of `stacked_matmul` (source lines 213-226): the matrix product
`A ⬝ B`, columnwise. -/
def stacked_matmul_one (A B : MatC α) (n : ℕ) : MatC α :=
  B.map (fun bc => matVec A bc n)

/-- Standard basis column `e_j` of length `n`. -/
def basisCol (n j : ℕ) : Vec α :=
  (List.range n).map (fun r => if r = j then 1 else 0)

/-- The identity matrix `np.identity n`, as columns. -/
def ident (n : ℕ) : MatC α := (List.range n).map (basisCol n)

/-- Elementwise matrix sum. -/
def matAdd (A B : MatC α) : MatC α := List.zipWith vadd A B

/-- Elementwise matrix difference. -/
def matSub (A B : MatC α) : MatC α := List.zipWith vsub A B

/-- Scalar times matrix. -/
def matSmul (c : α) (A : MatC α) : MatC α := A.map (smul c)

/-- Diagonal collocation block for interval `i` (source lines 336-340):
start from `-I`, subtract `h/6 (df_dy[:-1] + 2 df_dy_middle)`, then subtract
`h²/12 (df_dy_middle ⬝ df_dy[:-1])`.  `A` is `df_dy` at the left node, `M` at
the interval midpoint. -/
def dPhi_dy_0_block (n : ℕ) (hi : α) (A M : MatC α) : MatC α :=
  matSub (matSub (matSmul (-1) (ident n))
      (matSmul (hi / 6) (matAdd A (matSmul 2 M))))
    (matSmul (hi * hi / 12) (stacked_matmul_one M A n))

/-- Off-diagonal collocation block for interval `i` (source lines 343-347):
start from `+I`, subtract `h/6 (df_dy[1:] + 2 df_dy_middle)`, then add
`h²/12 (df_dy_middle ⬝ df_dy[1:])`.  `A'` is `df_dy` at the right node. -/
def dPhi_dy_1_block (n : ℕ) (hi : α) (Ar M : MatC α) : MatC α :=
  matAdd (matSub (ident n)
      (matSmul (hi / 6) (matAdd Ar (matSmul 2 M))))
    (matSmul (hi * hi / 12) (stacked_matmul_one M Ar n))

/-- Matrix entry at row `r`, column `c` of a column-list matrix. -/
def entry (M : MatC α) (r c : ℕ) : α := (M.getD c []).getD r 0

/-- Well-formed `n × n` column-list matrix. -/
def wfMat (M : MatC α) (n : ℕ) : Prop :=
  M.length = n ∧ ∀ col ∈ M, col.length = n

theorem length_vadd (a b : Vec α) : (vadd a b).length = min a.length b.length :=
  List.length_zipWith _ _ _

theorem length_vsub (a b : Vec α) : (vsub a b).length = min a.length b.length :=
  List.length_zipWith _ _ _

theorem length_smul (c : α) (a : Vec α) : (smul c a).length = a.length :=
  List.length_map _ _

theorem getD_vadd (a b : Vec α) {r : ℕ} (hra : r < a.length)
    (hrb : r < b.length) : (vadd a b).getD r 0 = a.getD r 0 + b.getD r 0 := by
  rw [List.getD_eq_getElem _ 0 (by rw [length_vadd]; omega)]
  unfold vadd
  rw [List.getElem_zipWith, List.getD_eq_getElem a 0 hra,
    List.getD_eq_getElem b 0 hrb]

theorem getD_vsub (a b : Vec α) {r : ℕ} (hra : r < a.length)
    (hrb : r < b.length) : (vsub a b).getD r 0 = a.getD r 0 - b.getD r 0 := by
  rw [List.getD_eq_getElem _ 0 (by rw [length_vsub]; omega)]
  unfold vsub
  rw [List.getElem_zipWith, List.getD_eq_getElem a 0 hra,
    List.getD_eq_getElem b 0 hrb]

theorem getD_smul (c : α) (a : Vec α) {r : ℕ} (hr : r < a.length) :
    (smul c a).getD r 0 = c * a.getD r 0 := by
  rw [List.getD_eq_getElem _ 0 (by rw [length_smul]; omega)]
  unfold smul
  rw [List.getElem_map, List.getD_eq_getElem a 0 hr]

theorem getD_replicate_zero (n r : ℕ) :
    (List.replicate n (0 : α)).getD r 0 = 0 := by
  by_cases h : r < n
  · rw [List.getD_eq_getElem _ 0 (by simpa using h), List.getElem_replicate]
  · rw [List.getD_eq_default _ 0 (by simpa using h)]

theorem length_matVec (M : MatC α) (v : Vec α) (n : ℕ)
    (hM : ∀ col ∈ M, col.length = n) : (matVec M v n).length = n := by
  induction M generalizing v with
  | nil =>
    cases v <;> simp [matVec]
  | cons col M ih =>
    cases v with
    | nil => simp [matVec]
    | cons c v =>
      have : matVec (col :: M) (c :: v) n = vadd (smul c col) (matVec M v n) := rfl
      rw [this, length_vadd, length_smul, hM col (List.mem_cons_self _ _),
        ih v (fun l hl => hM l (List.mem_cons_of_mem _ hl))]
      omega

theorem getD_matVec (M : MatC α) (v : Vec α) (n : ℕ)
    (hM : ∀ col ∈ M, col.length = n) {r : ℕ} (hr : r < n) :
    (matVec M v n).getD r 0 =
      (List.zipWith (fun col c => c * col.getD r 0) M v).sum := by
  induction M generalizing v with
  | nil => cases v <;> simp [matVec, getD_replicate_zero]
  | cons col M ih =>
    cases v with
    | nil => simp [matVec, getD_replicate_zero]
    | cons c v =>
      have hstep : matVec (col :: M) (c :: v) n = vadd (smul c col) (matVec M v n) := rfl
      rw [hstep, getD_vadd _ _
          (by rw [length_smul, hM col (List.mem_cons_self _ _)]; omega)
          (by rw [length_matVec M v n (fun l hl => hM l (List.mem_cons_of_mem _ hl))]; omega),
        getD_smul c col (by rw [hM col (List.mem_cons_self _ _)]; omega),
        ih v (fun l hl => hM l (List.mem_cons_of_mem _ hl))]
      simp

theorem zipWith_colsum_eq_range (M : MatC α) (v : Vec α) (n : ℕ)
    (hM : M.length = n) (hv : v.length = n) (r : ℕ) :
    (List.zipWith (fun col c => c * col.getD r 0) M v).sum =
      ((List.range n).map (fun s => v.getD s 0 * (M.getD s []).getD r 0)).sum := by
  induction M generalizing v n with
  | nil =>
    cases v with
    | nil => subst hM; simp
    | cons c v => simp at hM; subst hM; simp at hv
  | cons col M ih =>
    cases v with
    | nil => simp at hv; subst hv; simp at hM
    | cons c v =>
      cases n with
      | zero => simp at hM
      | succ n =>
        rw [List.range_succ_eq_map]
        simp only [List.zipWith_cons_cons, List.sum_cons, List.map_cons,
          List.map_map]
        rw [ih v n (by simpa using hM) (by simpa using hv)]
        exact congrArg₂ (· + ·) rfl
          (congrArg List.sum (List.map_congr_left (fun s hs => rfl)))

/-- Entry of a matrix-vector product as an explicit finite sum. -/
theorem getD_matVec_sum (M : MatC α) (v : Vec α) (n : ℕ)
    (hM : wfMat M n) (hv : v.length = n) {r : ℕ} (hr : r < n) :
    (matVec M v n).getD r 0 =
      ((List.range n).map (fun s => v.getD s 0 * (M.getD s []).getD r 0)).sum := by
  rw [getD_matVec M v n hM.2 hr, zipWith_colsum_eq_range M v n hM.1 hv r]

theorem getD_basisCol (n j : ℕ) {r : ℕ} (hr : r < n) :
    (basisCol (α := α) n j).getD r 0 = if r = j then 1 else 0 := by
  rw [basisCol, List.getD_eq_getElem _ 0 (by simpa using hr), List.getElem_map,
    List.getElem_range]

theorem wf_ident (n : ℕ) : wfMat (ident (α := α) n) n := by
  constructor
  · simp [ident]
  · intro col hcol
    obtain ⟨j, hj, rfl⟩ := List.mem_map.mp hcol
    simp [basisCol]

theorem entry_ident (n : ℕ) {r c : ℕ} (hr : r < n) (hc : c < n) :
    entry (ident (α := α) n) r c = if r = c then 1 else 0 := by
  rw [entry, ident, List.getD_eq_getElem _ [] (by simpa using hc),
    List.getElem_map, List.getElem_range, getD_basisCol n c hr]

theorem wf_matAdd {A B : MatC α} {n : ℕ} (hA : wfMat A n) (hB : wfMat B n) :
    wfMat (matAdd A B) n := by
  constructor
  · rw [matAdd, List.length_zipWith, hA.1, hB.1]; omega
  · intro col hcol
    rw [matAdd] at hcol
    obtain ⟨i, hi, rfl⟩ := List.mem_iff_getElem.mp hcol
    rw [List.getElem_zipWith, length_vadd]
    have hiA : i < A.length := by
      rw [List.length_zipWith] at hi; omega
    have hiB : i < B.length := by
      rw [List.length_zipWith] at hi; omega
    rw [hA.2 _ (List.getElem_mem hiA), hB.2 _ (List.getElem_mem hiB)]
    omega

theorem wf_matSub {A B : MatC α} {n : ℕ} (hA : wfMat A n) (hB : wfMat B n) :
    wfMat (matSub A B) n := by
  constructor
  · rw [matSub, List.length_zipWith, hA.1, hB.1]; omega
  · intro col hcol
    rw [matSub] at hcol
    obtain ⟨i, hi, rfl⟩ := List.mem_iff_getElem.mp hcol
    rw [List.getElem_zipWith, length_vsub]
    have hiA : i < A.length := by
      rw [List.length_zipWith] at hi; omega
    have hiB : i < B.length := by
      rw [List.length_zipWith] at hi; omega
    rw [hA.2 _ (List.getElem_mem hiA), hB.2 _ (List.getElem_mem hiB)]
    omega

theorem wf_matSmul (c : α) {A : MatC α} {n : ℕ} (hA : wfMat A n) :
    wfMat (matSmul c A) n := by
  constructor
  · rw [matSmul, List.length_map, hA.1]
  · intro col hcol
    rw [matSmul] at hcol
    obtain ⟨l, hl, rfl⟩ := List.mem_map.mp hcol
    rw [length_smul, hA.2 l hl]

theorem wf_stacked_matmul_one {A B : MatC α} {n : ℕ} (hA : wfMat A n)
    (hB : wfMat B n) : wfMat (stacked_matmul_one A B n) n := by
  constructor
  · rw [stacked_matmul_one, List.length_map, hB.1]
  · intro col hcol
    rw [stacked_matmul_one] at hcol
    obtain ⟨l, hl, rfl⟩ := List.mem_map.mp hcol
    exact length_matVec A l n hA.2

theorem entry_matAdd {A B : MatC α} {n : ℕ} (hA : wfMat A n) (hB : wfMat B n)
    {r c : ℕ} (hr : r < n) (hc : c < n) :
    entry (matAdd A B) r c = entry A r c + entry B r c := by
  have hcA : c < A.length := by rw [hA.1]; omega
  have hcB : c < B.length := by rw [hB.1]; omega
  rw [entry, matAdd, List.getD_eq_getElem _ []
      (by rw [List.length_zipWith]; omega),
    List.getElem_zipWith,
    getD_vadd _ _ (by rw [hA.2 _ (List.getElem_mem hcA)]; omega)
      (by rw [hB.2 _ (List.getElem_mem hcB)]; omega),
    entry, entry, List.getD_eq_getElem A [] hcA, List.getD_eq_getElem B [] hcB]

theorem entry_matSub {A B : MatC α} {n : ℕ} (hA : wfMat A n) (hB : wfMat B n)
    {r c : ℕ} (hr : r < n) (hc : c < n) :
    entry (matSub A B) r c = entry A r c - entry B r c := by
  have hcA : c < A.length := by rw [hA.1]; omega
  have hcB : c < B.length := by rw [hB.1]; omega
  rw [entry, matSub, List.getD_eq_getElem _ []
      (by rw [List.length_zipWith]; omega),
    List.getElem_zipWith,
    getD_vsub _ _ (by rw [hA.2 _ (List.getElem_mem hcA)]; omega)
      (by rw [hB.2 _ (List.getElem_mem hcB)]; omega),
    entry, entry, List.getD_eq_getElem A [] hcA, List.getD_eq_getElem B [] hcB]

theorem entry_matSmul (k : α) {A : MatC α} {n : ℕ} (hA : wfMat A n)
    {r c : ℕ} (hr : r < n) (hc : c < n) :
    entry (matSmul k A) r c = k * entry A r c := by
  have hcA : c < A.length := by rw [hA.1]; omega
  rw [entry, matSmul, List.getD_eq_getElem _ [] (by rw [List.length_map]; omega),
    List.getElem_map,
    getD_smul k _ (by rw [hA.2 _ (List.getElem_mem hcA)]; omega),
    entry, List.getD_eq_getElem A [] hcA]

theorem entry_stacked_matmul_one {A B : MatC α} {n : ℕ} (hA : wfMat A n)
    (hB : wfMat B n) {r c : ℕ} (hr : r < n) (hc : c < n) :
    entry (stacked_matmul_one A B n) r c =
      ((List.range n).map (fun s => entry A r s * entry B s c)).sum := by
  have hcB : c < B.length := by rw [hB.1]; omega
  rw [entry, stacked_matmul_one, List.getD_eq_getElem _ []
      (by rw [List.length_map]; omega),
    List.getElem_map,
    ← List.getD_eq_getElem B [] hcB,
    getD_matVec_sum A (B.getD c []) n hA
      (by rw [List.getD_eq_getElem B [] hcB]; exact hB.2 _ (List.getElem_mem hcB)) hr]
  congr 1
  apply List.map_congr_left
  intro s hs
  rw [entry, entry]
  ring

/-- C4: for every interval, the diagonal and off-diagonal `n × n` collocation
blocks assembled by `construct_global_jac` equal, entrywise,

  dPhi_dy_0 = -I - (h/6)(df_dy_i + 2 df_dy_mid) - (h²/12) df_dy_mid ⬝ df_dy_i
  dPhi_dy_1 = +I - (h/6)(df_dy_{i+1} + 2 df_dy_mid) + (h²/12) df_dy_mid ⬝ df_dy_{i+1}

with the matrix products written as explicit sums (source lines 335-347
against §4.3). -/
theorem C4_collocation_jacobian_blocks {α : Type} [LinearOrderedField α]
    (n : ℕ) (hi : α) (A Ar M : MatC α)
    (hA : wfMat A n) (hAr : wfMat Ar n) (hM : wfMat M n) :
    ∀ r < n, ∀ c < n,
      (entry (dPhi_dy_0_block n hi A M) r c =
        -(if r = c then 1 else 0) - hi / 6 * (entry A r c + 2 * entry M r c)
          - hi * hi / 12 *
            ((List.range n).map (fun s => entry M r s * entry A s c)).sum) ∧
      (entry (dPhi_dy_1_block n hi Ar M) r c =
        (if r = c then 1 else 0) - hi / 6 * (entry Ar r c + 2 * entry M r c)
          + hi * hi / 12 *
            ((List.range n).map (fun s => entry M r s * entry Ar s c)).sum) := by
  intro r hr c hc
  have hId := wf_ident (α := α) n
  have hadd0 : wfMat (matAdd A (matSmul 2 M)) n := wf_matAdd hA (wf_matSmul 2 hM)
  have hadd1 : wfMat (matAdd Ar (matSmul 2 M)) n := wf_matAdd hAr (wf_matSmul 2 hM)
  have hprod0 : wfMat (stacked_matmul_one M A n) n := wf_stacked_matmul_one hM hA
  have hprod1 : wfMat (stacked_matmul_one M Ar n) n := wf_stacked_matmul_one hM hAr
  constructor
  · rw [dPhi_dy_0_block,
      entry_matSub (wf_matSub (wf_matSmul (-1) hId) (wf_matSmul (hi / 6) hadd0))
        (wf_matSmul (hi * hi / 12) hprod0) hr hc,
      entry_matSub (wf_matSmul (-1) hId) (wf_matSmul (hi / 6) hadd0) hr hc,
      entry_matSmul (-1) hId hr hc, entry_ident n hr hc,
      entry_matSmul (hi / 6) hadd0 hr hc,
      entry_matAdd hA (wf_matSmul 2 hM) hr hc, entry_matSmul 2 hM hr hc,
      entry_matSmul (hi * hi / 12) hprod0 hr hc,
      entry_stacked_matmul_one hM hA hr hc]
    ring
  · rw [dPhi_dy_1_block,
      entry_matAdd (wf_matSub hId (wf_matSmul (hi / 6) hadd1))
        (wf_matSmul (hi * hi / 12) hprod1) hr hc,
      entry_matSub hId (wf_matSmul (hi / 6) hadd1) hr hc,
      entry_ident n hr hc,
      entry_matSmul (hi / 6) hadd1 hr hc,
      entry_matAdd hAr (wf_matSmul 2 hM) hr hc, entry_matSmul 2 hM hr hc,
      entry_matSmul (hi * hi / 12) hprod1 hr hc,
      entry_stacked_matmul_one hM hAr hr hc]

/-- Witness for C4 at `n = 2`, `h = 1/2` and concrete rational Jacobians. -/
theorem C4_witness :
    entry (dPhi_dy_0_block 2 ((1:ℚ)/2) [[1, 2], [3, 4]] [[5, 6], [7, 8]]) 0 1 =
        -(if 0 = 1 then 1 else 0) - (1/2) / 6 * (entry ([[1, 2], [3, 4]] : MatC ℚ) 0 1
          + 2 * entry ([[5, 6], [7, 8]] : MatC ℚ) 0 1)
          - (1/2) * (1/2) / 12 *
            ((List.range 2).map (fun s => entry ([[5, 6], [7, 8]] : MatC ℚ) 0 s *
              entry ([[1, 2], [3, 4]] : MatC ℚ) s 1)).sum ∧
    entry (dPhi_dy_1_block 2 ((1:ℚ)/2) [[9, 1], [2, 3]] [[5, 6], [7, 8]]) 1 0 =
        (if 1 = 0 then 1 else 0) - (1/2) / 6 * (entry ([[9, 1], [2, 3]] : MatC ℚ) 1 0
          + 2 * entry ([[5, 6], [7, 8]] : MatC ℚ) 1 0)
          + (1/2) * (1/2) / 12 *
            ((List.range 2).map (fun s => entry ([[5, 6], [7, 8]] : MatC ℚ) 1 s *
              entry ([[9, 1], [2, 3]] : MatC ℚ) s 0)).sum := by
  constructor
  · exact (C4_collocation_jacobian_blocks 2 ((1:ℚ)/2) [[1, 2], [3, 4]]
      [[9, 1], [2, 3]] [[5, 6], [7, 8]] ⟨by decide, by decide⟩
      ⟨by decide, by decide⟩ ⟨by decide, by decide⟩ 0 (by decide) 1 (by decide)).1
  · exact (C4_collocation_jacobian_blocks 2 ((1:ℚ)/2) [[1, 2], [3, 4]]
      [[9, 1], [2, 3]] [[5, 6], [7, 8]] ⟨by decide, by decide⟩
      ⟨by decide, by decide⟩ ⟨by decide, by decide⟩ 1 (by decide) 0 (by decide)).2

/-! ## Finite-difference boundary-condition Jacobian
(`estimate_bc_jac`, source lines 103-184)

The forward-difference step uses `EPS ** 0.5 = 2 ** (-26)` exactly
(`sqrtEps`); in exact arithmetic the recomputed step `(x + h) - x` equals the
nominal step `h`.  `np.empty((nq, n + nq + k))` is modelled by an explicit
parameter `u` carrying the array's unspecified initial contents, row by row.
An out-of-range numpy access (the source's `qa_new[i] += h[i]` and
`dbc_dqa[i] = ...` for `i` beyond the array) raises `IndexError`; it is
modelled by `Option`: `none` means the call raises.  The source transposes
`dbc_dqa` before returning; rows here are therefore the columns of the
returned array, carrying the same data. -/

/-- `EPS ** 0.5` for double precision: exactly `2 ** (-26)`. -/
def sqrtEps : α := (67108864 : α)⁻¹

/-- Bounds-checked row assignment `rows[i] = r` (numpy raises when `i` is out
of range). -/
def setRow? {β : Type} (rows : List β) (i : ℕ) (r : β) : Option (List β) :=
  if i < rows.length then some (rows.set i r) else none

/-- The rows of `dbc_dya` before the final transpose (source lines 127-135):
row `i` is `(bc(ya + h_i e_i, qa, yb, qb, p) - bc0) / h_i` with
`h_i = sqrtEps * (1 + |ya_i|)`.  The loop runs over `range n`; every access is
in range, so no `Option` is needed.  The same shape serves `dbc_dyb`
(lines 161-169) and `dbc_dp` (lines 171-182). -/
def bc_jac_fd_rows (bcApp : Vec α → Vec α) (v : Vec α) (bc0 : Vec α)
    (n : ℕ) : List (Vec α) :=
  (List.range n).map (fun i =>
    let vi := v.getD i 0
    let hi := sqrtEps * (1 + |vi|)
    smul hi⁻¹ (vsub (bcApp (v.set i (vi + hi))) bc0))

/-- One step of the quadrature finite-difference loops (source lines 143-148
and 153-158): read `q[i]` and the step (an `IndexError` when `i ≥ nq`), then
assign row `i` of the output array (also an `IndexError` when out of range). -/
def qRowStep (bcApp : Vec α → Vec α) (q bc0 : Vec α)
    (rows : List (Vec α)) (i : ℕ) : Option (List (Vec α)) :=
  match q[i]? with
  | none => none
  | some qi =>
      let hi := sqrtEps * (1 + |qi|)
      setRow? rows i (smul hi⁻¹ (vsub (bcApp (q.set i (qi + hi))) bc0))

/-- The quadrature finite-difference loop of `estimate_bc_jac`: `for i in
range(n)` — the state dimension, not the quadrature dimension — starting from
the uninitialized array contents `u`. -/
def bc_jac_q_rows (bcApp : Vec α → Vec α) (q bc0 : Vec α) (n : ℕ)
    (u : List (Vec α)) : Option (List (Vec α)) :=
  (List.range n).foldl
    (fun acc i => acc.bind (fun rows => qRowStep bcApp q bc0 rows i)) (some u)

/-- `estimate_bc_jac` (source lines 103-184): finite-difference Jacobians of
the boundary conditions.  Returns
`(dbc_dya, dbc_dqa, dbc_dyb, dbc_dqb, dbc_dp)`; the two quadrature blocks are
`none` when `nq = 0` (the source's `None`), and the whole result is `none`
when a quadrature loop raises `IndexError`.  `dbc_dp` is `[]` when `k = 0`
(the source's `None`). -/
def estimate_bc_jac (bc5 : Vec α → Vec α → Vec α → Vec α → Vec α → Vec α)
    (ya qa yb qb p bc0 : Vec α) (uQa uQb : List (Vec α)) :
    Option (List (Vec α) × Option (List (Vec α)) × List (Vec α) ×
      Option (List (Vec α)) × List (Vec α)) :=
  let n := ya.length
  let dya := bc_jac_fd_rows (fun v => bc5 v qa yb qb p) ya bc0 n
  let dyb := bc_jac_fd_rows (fun v => bc5 ya qa yb v p) yb bc0 n
  let dp := bc_jac_fd_rows (fun v => bc5 ya qa yb qb v) p bc0 p.length
  if qa.length = 0 then
    some (dya, none, dyb, none, dp)
  else
    (bc_jac_q_rows (fun v => bc5 ya v yb qb p) qa bc0 n uQa).bind fun dqa =>
      (bc_jac_q_rows (fun v => bc5 ya qa yb v p) qb bc0 n uQb).bind fun dqb =>
        some (dya, some dqa, dyb, some dqb, dp)

theorem foldl_bind_none {β γ : Type} (g : γ → β → Option β) (l : List γ) :
    l.foldl (fun acc i => Option.bind acc (fun rows => g i rows)) none = none := by
  induction l with
  | nil => rfl
  | cons a l ih => simpa using ih

/-- The quadrature loop succeeds on indices strictly below both the vector
and the row count, preserving length and the untouched rows. -/
theorem bc_jac_q_rows_aux (bcApp : Vec α → Vec α) (q bc0 : Vec α)
    (l : List ℕ) (rows : List (Vec α))
    (hl : ∀ i ∈ l, i < q.length ∧ i < rows.length) :
    ∃ rows',
      l.foldl (fun acc i => Option.bind acc
        (fun rs => qRowStep bcApp q bc0 rs i)) (some rows) = some rows' ∧
      rows'.length = rows.length ∧
      ∀ r, (∀ i ∈ l, i ≠ r) → rows'.getD r [] = rows.getD r [] := by
  induction l generalizing rows with
  | nil => exact ⟨rows, rfl, rfl, fun r _ => rfl⟩
  | cons i l ih =>
    have hi := hl i (List.mem_cons_self _ _)
    have hiq : i < q.length := hi.1
    have hq : q[i]? = some q[i] := List.getElem?_eq_getElem hiq
    have hstep : qRowStep bcApp q bc0 rows i =
        some (rows.set i (smul (sqrtEps * (1 + |q[i]|))⁻¹
          (vsub (bcApp (q.set i (q[i] + sqrtEps * (1 + |q[i]|)))) bc0))) := by
      rw [qRowStep, hq]
      simp only [setRow?, if_pos hi.2]
    obtain ⟨rows', h1, h2, h3⟩ := ih (rows.set i _)
      (fun j hj => ⟨(hl j (List.mem_cons_of_mem _ hj)).1,
        by rw [List.length_set]; exact (hl j (List.mem_cons_of_mem _ hj)).2⟩)
    refine ⟨rows', ?_, ?_, ?_⟩
    · simpa [hstep] using h1
    · rw [h2, List.length_set]
    · intro r hr
      rw [h3 r (fun j hj => hr j (List.mem_cons_of_mem _ hj))]
      have hir : i ≠ r := hr i (List.mem_cons_self _ _)
      by_cases hrlen : r < rows.length
      · rw [List.getD_eq_getElem _ [] (by rw [List.length_set]; omega),
          List.getD_eq_getElem _ [] hrlen, List.getElem_set_ne (by omega)]
      · rw [List.getD_eq_default _ [] (by rw [List.length_set]; omega),
          List.getD_eq_default _ [] (by omega)]

/-- With `0 < nq < n` the quadrature loop dereferences `q[nq]` and raises. -/
theorem bc_jac_q_rows_oob (bcApp : Vec α → Vec α) (q bc0 : Vec α) (n : ℕ)
    (u : List (Vec α)) (hlt : q.length < n) (hu : u.length = q.length) :
    bc_jac_q_rows bcApp q bc0 n u = none := by
  obtain ⟨m, hm⟩ : ∃ m, n = q.length + (m + 1) := ⟨n - q.length - 1, by omega⟩
  rw [bc_jac_q_rows, hm, List.range_add, List.foldl_append]
  obtain ⟨rows', h1, h2, h3⟩ := bc_jac_q_rows_aux bcApp q bc0
    (List.range q.length) u
    (fun i hi => ⟨List.mem_range.mp hi, by rw [hu]; exact List.mem_range.mp hi⟩)
  rw [h1]
  rw [List.range_succ_eq_map]
  simp only [List.map_cons, List.foldl_cons, Nat.add_zero]
  have hnone : qRowStep bcApp q bc0 rows' q.length = none := by
    rw [qRowStep, List.getElem?_eq_none (le_refl _)]
  simp only [Option.some_bind, hnone]
  exact foldl_bind_none _ _

/-- C10: the finite-difference loops for the quadrature boundary values
iterate over the state dimension `n` instead of the quadrature dimension
`nq` (source lines 143 and 153, `for i in range(n)`):

* when `0 < nq < n`, the access `qa_new[i]` / `h[i]` at `i = nq` is out of
  range and `estimate_bc_jac` raises (`none`);
* when `nq > n`, the call returns, but rows `n .. nq-1` of `dbc_dqa` and
  `dbc_dqb` are exactly the uninitialized `np.empty` contents, never
  assigned.

Together: the quadrature Jacobians are fully defined only when `nq = 0` or
`nq = n`. -/
theorem C10_bc_jac_quad_loop_bounds {α : Type} [LinearOrderedField α] :
    (∀ (bc5 : Vec α → Vec α → Vec α → Vec α → Vec α → Vec α)
       (ya qa yb qb p bc0 : Vec α) (uQa uQb : List (Vec α)),
      0 < qa.length → qa.length < ya.length → uQa.length = qa.length →
      estimate_bc_jac bc5 ya qa yb qb p bc0 uQa uQb = none) ∧
    (∀ (bc5 : Vec α → Vec α → Vec α → Vec α → Vec α → Vec α)
       (ya qa yb qb p bc0 : Vec α) (uQa uQb : List (Vec α)),
      ya.length < qa.length → qb.length = qa.length →
      uQa.length = qa.length → uQb.length = qa.length →
      ∃ dya dqa dyb dqb dp,
        estimate_bc_jac bc5 ya qa yb qb p bc0 uQa uQb =
          some (dya, some dqa, dyb, some dqb, dp) ∧
        (∀ r, ya.length ≤ r → r < qa.length →
          dqa.getD r [] = uQa.getD r [] ∧ dqb.getD r [] = uQb.getD r [])) := by
  constructor
  · intro bc5 ya qa yb qb p bc0 uQa uQb h0 hlt hu
    have hoob := bc_jac_q_rows_oob (fun v => bc5 ya v yb qb p) qa bc0
      ya.length uQa hlt hu
    have hne : qa ≠ [] := by
      intro h
      rw [h] at h0
      simp at h0
    simp [estimate_bc_jac, hne, hoob]
  · intro bc5 ya qa yb qb p bc0 uQa uQb hgt hqb huA huB
    obtain ⟨dqa, ha1, ha2, ha3⟩ := bc_jac_q_rows_aux
      (fun v => bc5 ya v yb qb p) qa bc0 (List.range ya.length) uQa
      (fun i hi => ⟨by have := List.mem_range.mp hi; omega,
        by have := List.mem_range.mp hi; omega⟩)
    obtain ⟨dqb, hb1, hb2, hb3⟩ := bc_jac_q_rows_aux
      (fun v => bc5 ya qa yb v p) qb bc0 (List.range ya.length) uQb
      (fun i hi => ⟨by have := List.mem_range.mp hi; omega,
        by have := List.mem_range.mp hi; omega⟩)
    refine ⟨bc_jac_fd_rows (fun v => bc5 v qa yb qb p) ya bc0 ya.length, dqa,
      bc_jac_fd_rows (fun v => bc5 ya qa yb v p) yb bc0 ya.length, dqb,
      bc_jac_fd_rows (fun v => bc5 ya qa yb qb v) p bc0 p.length, ?_, ?_⟩
    · have hqa1 : bc_jac_q_rows (fun v => bc5 ya v yb qb p) qa bc0
          ya.length uQa = some dqa := ha1
      have hqb1 : bc_jac_q_rows (fun v => bc5 ya qa yb v p) qb bc0
          ya.length uQb = some dqb := hb1
      have hne : qa ≠ [] := by
        intro h
        rw [h] at hgt
        simp at hgt
      simp [estimate_bc_jac, hne, hqa1, hqb1]
    · intro r hnr hrq
      exact ⟨ha3 r (fun i hi => by have := List.mem_range.mp hi; omega),
        hb3 r (fun i hi => by have := List.mem_range.mp hi; omega)⟩

/-- Witness for C10: with `n = 2, nq = 1` the call raises; with
`n = 1, nq = 2` it returns the uninitialized row `[4, 5, 6]` untouched in
`dbc_dqa`. -/
theorem C10_witness :
    estimate_bc_jac (fun _ _ _ _ _ => ([0, 0, 0] : Vec ℚ))
        [0, 0] [0] [0, 0] [0] [] [0, 0, 0] [[9, 9, 9]] [[8, 8, 8]] = none ∧
    (∃ dya dqa dyb dqb dp,
      estimate_bc_jac (fun _ _ _ _ _ => ([0, 0, 0] : Vec ℚ))
          [0] [0, 0] [0] [0, 0] [] [0, 0, 0]
          [[1, 2, 3], [4, 5, 6]] [[7, 8, 9], [3, 2, 1]] =
        some (dya, some dqa, dyb, some dqb, dp) ∧
      (∀ r, 1 ≤ r → r < 2 →
        dqa.getD r [] = [[1, 2, 3], [4, 5, 6]].getD r [] ∧
        dqb.getD r [] = [[7, 8, 9], [3, 2, 1]].getD r [])) := by
  constructor
  · exact C10_bc_jac_quad_loop_bounds.1 _ [0, 0] [0] [0, 0] [0] [] [0, 0, 0]
      [[9, 9, 9]] [[8, 8, 8]] (by decide) (by decide) (by decide)
  · exact C10_bc_jac_quad_loop_bounds.2 _ [0] [0, 0] [0] [0, 0] [] [0, 0, 0]
      [[1, 2, 3], [4, 5, 6]] [[7, 8, 9], [3, 2, 1]]
      (by decide) (by decide) (by decide) (by decide)

/-! ## Exact linear solver, modelling `splu` and `LU.solve`
(source lines 607-613, 639)

Exact-arithmetic Gaussian elimination with a first-nonzero-pivot search.
For a nonsingular square system every pivoting strategy yields the same
unique solution, so this models the factor-once / solve-many use of `splu`;
`luFactor` returns `none` exactly when elimination finds a column with no
nonzero pivot, modelling the `RuntimeError` the source catches. -/

/-- Find the first row with a nonzero leading entry; return it and the other
rows in order. -/
def findPivotRow : List (List α) → Option (List α × List (List α))
  | [] => none
  | r :: rs =>
    match r with
    | [] => none
    | a :: _ =>
      if a ≠ 0 then some (r, rs)
      else
        match findPivotRow rs with
        | some (pv, rest) => some (pv, r :: rest)
        | none => none

/-- Gaussian elimination on an augmented system (each row carries its
right-hand side last); `fuel` is the row count.  Returns the solution vector
or `none` on a missing pivot. -/
def gaussAux : ℕ → List (List α) → Option (Vec α)
  | 0, rows => if rows.isEmpty then some [] else none
  | fuel + 1, rows =>
    if rows.isEmpty then some [] else
    match findPivotRow rows with
    | none => none
    | some (prow, rest) =>
      match prow with
      | [] => none
      | a :: pr =>
        let prn := smul a⁻¹ pr
        let rest1 := rest.map (fun row =>
          match row with
          | [] => []
          | b :: rr => vsub rr (smul b prn))
        match gaussAux fuel rest1 with
        | none => none
        | some xs =>
          let cs := prn.dropLast
          let b0 := prn.getD (prn.length - 1) 0
          some ((b0 - dot cs xs) :: xs)

/-- Solve `J s = r` exactly. -/
def gaussSolve (J : List (List α)) (r : Vec α) : Option (Vec α) :=
  gaussAux J.length (List.zipWith (fun row b => row ++ [b]) J r)

/-- The factorization object: `none` models `splu` raising `RuntimeError` on
a singular matrix; otherwise a function solving `J s = r` for any `r`
(the frozen `LU.solve`). -/
def luFactor (J : List (List α)) : Option (Vec α → Vec α) :=
  if (gaussSolve J (List.replicate J.length 0)).isSome then
    some (fun r => (gaussSolve J r).getD [])
  else none

/-! ## Damped Newton iteration (`solve_newton`, source lines 488-666)

Algorithm constants fixed inside the source function: `max_njev = 4`,
`max_iter = 8`, `sigma = 0.2`, `tau = 0.5`, `n_trial = 4`; the decimal
literals are modelled exactly.  The state record carries every local the
Python loop mutates; `exitK` is a ghost field recording which `break` fired
(it does not feed back into the computation) so that theorems can speak about
the exit path. -/

/-- Which `break` ended the Newton loop. -/
inductive NExitKind : Type
  | jacSingular : NExitKind
  | njevLimit : NExitKind
  | convPass : NExitKind
deriving DecidableEq

/-- The closures and dimensions `solve_newton` receives (source line 488). -/
structure NewtonIn (α : Type) where
  n : ℕ
  nq : ℕ
  m : ℕ
  h : List α
  colFun : Grid α → Vec α → Grid α × Grid α × Grid α × Grid α
  bcFun : Vec α → Vec α → Vec α → Vec α → Vec α → Vec α
  jacFun : Grid α → Grid α → Vec α → Grid α → Grid α → Grid α → Vec α →
    List (List α)
  B : Option (MatC α)
  bvp_tol : α

/-- Mutable locals of the Newton loop. -/
structure NState (α : Type) where
  y : Grid α
  q : Grid α
  p : Vec α
  colRes : Grid α
  yMid : Grid α
  f : Grid α
  fMid : Grid α
  bcRes : Vec α
  res : Vec α
  step : Vec α
  cost : α
  lu : Vec α → Vec α
  njev : ℕ
  singular : Bool
  recompute : Bool
  exitK : Option NExitKind

/-- `max_njev = 4` (source line 565). -/
def max_njev : ℕ := 4

/-- `max_iter = 8` (source line 570). -/
def max_iter : ℕ := 8

/-- Armijo constant `sigma = 0.2` (source line 574). -/
def newton_sigma : α := 2/10

/-- Backtracking factor `tau = 0.5` (source line 577). -/
def newton_tau : α := 1/2

/-- `n_trial = 4` (source line 581). -/
def n_trial : ℕ := 4

/-- `tol_r = 2/3 * h * 5e-2 * bvp_tol`, per interval (source line 554). -/
def tolRList (h : List α) (tol : α) : List α :=
  h.map (fun hi => 2/3 * hi * (5/100) * tol)

/-- `tol_bc = 5e-2 * bvp_tol` (source line 560). -/
def tolBcOf (tol : α) : α := 5/100 * tol

/-- Column `y[:, 0]`. -/
def col0 (g : Grid α) : Vec α := g.getD 0 []

/-- Column `y[:, -1]`. -/
def colLast (g : Grid α) : Vec α := g.getLastD []

/-- Overwrite column `0` (the projection `y_new[:, 0] = B y_new[:, 0]`). -/
def setCol0 (g : Grid α) (v : Vec α) : Grid α :=
  match g with
  | [] => []
  | _ :: t => v :: t

/-- The componentwise convergence test (source lines 653-654):
`np.all(np.abs(col_res) < tol_r * (1 + np.abs(f_middle)))` and
`np.all(bc_res < tol_bc)` — note the missing absolute value on `bc_res`. -/
def convTestB (inp : NewtonIn α) (colRes fMid : Grid α) (bcRes : Vec α) : Bool :=
  (zipWith3 (fun ci fi ti =>
      (List.zipWith (fun c fv => decide (|c| < ti * (1 + |fv|))) ci fi).all id)
    colRes fMid (tolRList inp.h inp.bvp_tol)).all id
  && bcRes.all (fun b => decide (b < tolBcOf inp.bvp_tol))

/-- `step[:m*n].reshape((n, m), order='F')`: the columns of the Newton step. -/
def chunkCols (n m : ℕ) (v : Vec α) : Grid α :=
  (List.range m).map (fun i => (v.drop (i * n)).take n)

/-- Everything a line-search trial computes (source lines 621-641); the last
executed trial's values flow out of the loop. -/
structure LSOut (α : Type) where
  alpha : α
  yNew : Grid α
  qNew : Grid α
  pNew : Vec α
  colRes : Grid α
  yMid : Grid α
  f : Grid α
  fMid : Grid α
  bcRes : Vec α
  res : Vec α
  stepNew : Vec α
  costNew : α

/-- One line-search trial at step size `alpha` (source lines 622-640).  `q`
is updated by numpy broadcasting `q - alpha * q_step`, which subtracts the
step from every column (exact for `nq ≤ 1`; larger `nq ≠ m` raises in
numpy). -/
def lsTrial (inp : NewtonIn α) (lu : Vec α → Vec α) (y q : Grid α) (p : Vec α)
    (ySt : Grid α) (qSt pSt : Vec α) (alpha : α) : LSOut α :=
  let yNew0 := List.zipWith (fun yc sc => vsub yc (smul alpha sc)) y ySt
  let yNew := match inp.B with
    | none => yNew0
    | some Bm => setCol0 yNew0 (matVec Bm (col0 yNew0) inp.n)
  let qNew := q.map (fun qc => vsub qc (smul alpha qSt))
  let pNew := vsub p (smul alpha pSt)
  let cr := inp.colFun yNew pNew
  let bcRes := if 0 < inp.nq then
      inp.bcFun (col0 yNew) (col0 qNew) (colLast yNew) (colLast qNew) pNew
    else inp.bcFun (col0 yNew) [] (colLast yNew) [] pNew
  let res := cr.1.flatten ++ bcRes
  let stepNew := lu res
  ⟨alpha, yNew, qNew, pNew, cr.1, cr.2.1, cr.2.2.1, cr.2.2.2, bcRes, res,
    stepNew, dot stepNew stepNew⟩

/-- The backtracking loop (source lines 620-645): try
`alpha = 1, tau, tau², …`; accept on the Armijo decrease
`cost_new < (1 - 2 alpha sigma) cost`, or keep the last trial. -/
def lineSearch (inp : NewtonIn α) (lu : Vec α → Vec α) (cost : α)
    (y q : Grid α) (p : Vec α) (ySt : Grid α) (qSt pSt : Vec α) :
    ℕ → α → LSOut α
  | 0, alpha => lsTrial inp lu y q p ySt qSt pSt alpha
  | t + 1, alpha =>
    let L := lsTrial inp lu y q p ySt qSt pSt alpha
    if L.costNew < (1 - 2 * alpha * newton_sigma) * cost then L
    else lineSearch inp lu cost y q p ySt qSt pSt t (alpha * newton_tau)

/-- One pass of the `for iteration in range(max_iter)` loop with its breaks
(source lines 603-664).  Note the commit at lines 647-648: `y = y_new`,
`p = p_new` — the accepted `q_new` is NOT committed, so `q` keeps its initial
value throughout. -/
def newtonStep (inp : NewtonIn α) : ℕ → NState α → NState α
  | 0, s => s
  | fuel + 1, s =>
    let fact : Option (NState α) :=
      if s.recompute then
        match luFactor (inp.jacFun s.y s.q s.p s.yMid s.f s.fMid s.bcRes) with
        | none => none
        | some lus =>
          let st := lus s.res
          some { s with
            lu := lus
            step := st
            cost := dot st st
            njev := s.njev + 1 }
      else some s
    match fact with
    | none =>
      { s with
        njev := s.njev + 1
        singular := true
        exitK := some NExitKind.jacSingular }
    | some s1 =>
      let ySt := chunkCols inp.n inp.m (s1.step.take (inp.m * inp.n))
      let qSt := (s1.step.drop (inp.m * inp.n)).take inp.nq
      let pSt := s1.step.drop (inp.m * inp.n + inp.nq)
      let L := lineSearch inp s1.lu s1.cost s1.y s1.q s1.p ySt qSt pSt n_trial 1
      let s2 := { s1 with
        y := L.yNew
        p := L.pNew
        colRes := L.colRes
        yMid := L.yMid
        f := L.f
        fMid := L.fMid
        bcRes := L.bcRes
        res := L.res }
      if s2.njev = max_njev then { s2 with exitK := some NExitKind.njevLimit }
      else if convTestB inp s2.colRes s2.fMid s2.bcRes then
        { s2 with exitK := some NExitKind.convPass }
      else if L.alpha = 1 then
        newtonStep inp fuel
          { s2 with
            step := L.stepNew
            cost := L.costNew
            recompute := false }
      else newtonStep inp fuel { s2 with recompute := true }

/-- Initial Newton state (source lines 583-602). -/
def newtonInit (inp : NewtonIn α) (y q : Grid α) (p : Vec α) : NState α :=
  let cr := inp.colFun y p
  let bcRes := if 0 < inp.nq then
      inp.bcFun (col0 y) (col0 q) (colLast y) (colLast q) p
    else inp.bcFun (col0 y) [] (colLast y) [] p
  { y := y
    q := q
    p := p
    colRes := cr.1
    yMid := cr.2.1
    f := cr.2.2.1
    fMid := cr.2.2.2
    bcRes := bcRes
    res := cr.1.flatten ++ bcRes
    step := []
    cost := 0
    lu := fun _ => []
    njev := 0
    singular := false
    recompute := true
    exitK := none }

/-- The full Newton loop state at exit. -/
def newtonFinal (inp : NewtonIn α) (y q : Grid α) (p : Vec α) : NState α :=
  newtonStep inp max_iter (newtonInit inp y q p)

/-- `solve_newton` returns `y, p, singular` (source line 666) — and nothing
else: the quadrature grid is not returned. -/
def solve_newton (inp : NewtonIn α) (y q : Grid α) (p : Vec α) :
    Grid α × Vec α × Bool :=
  let s := newtonFinal inp y q p
  (s.y, s.p, s.singular)

/-- Modelled from the spec: §4.4 step 4 reads "Commit Y, Q, P."  This
variant is `newtonStep` with the one difference the spec demands and the
source lacks: after the line search the accepted `q_new` is committed
(`q := L.qNew`) alongside `y` and `p`. -/
def newtonStepCommitQ (inp : NewtonIn α) : ℕ → NState α → NState α
  | 0, s => s
  | fuel + 1, s =>
    let fact : Option (NState α) :=
      if s.recompute then
        match luFactor (inp.jacFun s.y s.q s.p s.yMid s.f s.fMid s.bcRes) with
        | none => none
        | some lus =>
          let st := lus s.res
          some { s with
            lu := lus
            step := st
            cost := dot st st
            njev := s.njev + 1 }
      else some s
    match fact with
    | none =>
      { s with
        njev := s.njev + 1
        singular := true
        exitK := some NExitKind.jacSingular }
    | some s1 =>
      let ySt := chunkCols inp.n inp.m (s1.step.take (inp.m * inp.n))
      let qSt := (s1.step.drop (inp.m * inp.n)).take inp.nq
      let pSt := s1.step.drop (inp.m * inp.n + inp.nq)
      let L := lineSearch inp s1.lu s1.cost s1.y s1.q s1.p ySt qSt pSt n_trial 1
      let s2 := { s1 with
        y := L.yNew
        q := L.qNew
        p := L.pNew
        colRes := L.colRes
        yMid := L.yMid
        f := L.f
        fMid := L.fMid
        bcRes := L.bcRes
        res := L.res }
      if s2.njev = max_njev then { s2 with exitK := some NExitKind.njevLimit }
      else if convTestB inp s2.colRes s2.fMid s2.bcRes then
        { s2 with exitK := some NExitKind.convPass }
      else if L.alpha = 1 then
        newtonStepCommitQ inp fuel
          { s2 with
            step := L.stepNew
            cost := L.costNew
            recompute := false }
      else newtonStepCommitQ inp fuel { s2 with recompute := true }

/-- Modelled from the spec: the committing variant of `solve_newton`, which
also returns the final quadrature grid. -/
def solve_newton_commitQ (inp : NewtonIn α) (y q : Grid α) (p : Vec α) :
    Grid α × Grid α × Vec α × Bool :=
  let s := newtonStepCommitQ inp max_iter (newtonInit inp y q p)
  (s.y, s.q, s.p, s.singular)

/-! ## Finite-difference Jacobians of `f` (`estimate_fun_jac`, lines 17-57)

Perturbation of state row `i` and parameter `j`, columnwise: the shape
contract of §6.1 makes the vectorized call equal to the per-column one. -/

/-- Column `i` of the forward-difference `df/dy` at one mesh point
(source lines 36-42). -/
def fdJacCol (fcol : α → Vec α → Vec α → Vec α) (xq : α) (yq p f0q : Vec α)
    (i : ℕ) : Vec α :=
  let yi := yq.getD i 0
  let hi := sqrtEps * (1 + |yi|)
  smul hi⁻¹ (vsub (fcol xq (yq.set i (yi + hi)) p) f0q)

/-- `estimate_fun_jac`'s `df_dy`: per mesh point, the `n` columns of the
forward-difference Jacobian with respect to `y`. -/
def estimate_fun_jac (n : ℕ) (fcol : α → Vec α → Vec α → Vec α) (x : List α)
    (y : Grid α) (p : Vec α) (f0 : Grid α) : List (MatC α) :=
  zipWith3 (fun xq yq f0q => (List.range n).map (fdJacCol fcol xq yq p f0q))
    x y f0

/-- Column `j` of the forward-difference `df/dp` at one mesh point
(source lines 48-55). -/
def fdJacPCol (fcol : α → Vec α → Vec α → Vec α) (xq : α) (yq p f0q : Vec α)
    (j : ℕ) : Vec α :=
  let pj := p.getD j 0
  let hj := sqrtEps * (1 + |pj|)
  smul hj⁻¹ (vsub (fcol xq yq (p.set j (pj + hj))) f0q)

/-- `estimate_fun_jac`'s `df_dp`: per mesh point, the `k` columns of the
forward-difference Jacobian with respect to `p` (`[]` per point when `k = 0`,
the source's `None`). -/
def estimate_fun_jac_p (k : ℕ) (fcol : α → Vec α → Vec α → Vec α) (x : List α)
    (y : Grid α) (p : Vec α) (f0 : Grid α) : List (List (Vec α)) :=
  zipWith3 (fun xq yq f0q => (List.range k).map (fdJacPCol fcol xq yq p f0q))
    x y f0

/-! ## Global Jacobian assembly for the driver (`construct_global_jac` +
`compute_jac_indices`, source lines 187-391, materialized densely)

The COO triplets of `compute_jac_indices` place the diagonal blocks at rows
`i n .. i n + n - 1`, columns `i n ..`; the off-diagonal blocks one node
over; the boundary rows last, with `dbc_dya` in the first `n` columns,
`dbc_dyb` in the last `n` `y`-columns and `dbc_dp` in the `k` parameter
columns.  No triplet is duplicated, so the dense matrix below carries the
same data as the CSC materialization.  This is the `nq = 0` layout: for
`nq > 0` the source's value and index arrays disagree in length and
`coo_matrix` raises (caught by the bare `except` at line 389). -/

/-- Row `r` of a column-list matrix, as a length-`n` list. -/
def rowSlice (M : MatC α) (n r : ℕ) : Vec α :=
  (List.range n).map (fun c => entry M r c)

/-- A zero row segment. -/
def zerosV (n : ℕ) : Vec α := List.replicate n 0

/-- The parameter block of interval `i` (source lines 368-374): first
`df_dp_middle += 0.125 h (df_dy_middle ⬝ (df_dp[:-1] - df_dp[1:]))`, then
`dPhi_dp = -h/6 (df_dp[:-1] + df_dp[1:] + 4 df_dp_middle)`; columns indexed
by the parameter. -/
def dPhi_dp_block (n : ℕ) (hi : α) (M : MatC α) (dpL dpR dpM : List (Vec α)) :
    List (Vec α) :=
  zipWith3 (fun cl cr cm =>
      let cm1 := vadd cm (smul (1/8 * hi) (matVec M (vsub cl cr) n))
      smul (-(hi/6)) (vadd (vadd cl cr) (smul 4 cm1)))
    dpL dpR dpM

/-- The dense global Jacobian rows for the `nq = 0` block layout. -/
def construct_global_jac_rows (n m k : ℕ) (blocks0 blocks1 : List (MatC α))
    (pblocks : List (List (Vec α))) (dya dyb dp : List (Vec α)) :
    List (List α) :=
  ((List.range (m - 1)).map (fun i =>
    (List.range n).map (fun r =>
      zerosV (i * n) ++ rowSlice (blocks0.getD i []) n r ++
        rowSlice (blocks1.getD i []) n r ++ zerosV ((m - 2 - i) * n) ++
        (List.range k).map (fun j => entry (pblocks.getD i []) r j)))).flatten
  ++ (List.range (n + k)).map (fun r =>
      rowSlice dya n r ++ zerosV ((m - 2) * n) ++ rowSlice dyb n r ++
        (List.range k).map (fun j => entry dp r j))

/-! ## Residual estimation (`estimate_rms_residuals`, source lines 690-738)
and the spline evaluator (`PPoly`)

The source compares `rms = radicand ** 0.5` against `tol` and `100 tol`;
with `tol > 0` (the driver floors `tol` at `100 EPS`) and `radicand ≥ 0`
these comparisons are equivalent to comparing the radicand against `tol²`
and `(100 tol)²`, which stays inside the field.  The irrational abscissa
factor `(3/7) ** 0.5` is the parameter `sq37` of the driver environment. -/

/-- Piecewise cubic data: breakpoints and per-segment coefficient lists. -/
structure SplineData (α : Type) where
  x : List α
  segs : List (List (α × α × α × α))
deriving DecidableEq

/-- The segment index used by `PPoly` evaluation: the last interval whose
left node is at most `t`, clamped to `0 .. m-2` (extrapolation uses the edge
segments; at an interior node both candidate segments agree by C9). -/
def spline_find_seg (x : List α) (t : α) : ℕ :=
  ((x.drop 1).dropLast.filter (fun xj => decide (xj ≤ t))).length

/-- Spline value at `t`, componentwise. -/
def spline_eval (sd : SplineData α) (t : α) : Vec α :=
  let i := spline_find_seg sd.x t
  let xi := sd.x.getD i 0
  (sd.segs.getD i []).map (fun c => polyEval c (t - xi))

/-- Spline first derivative at `t`, componentwise. -/
def spline_deriv (sd : SplineData α) (t : α) : Vec α :=
  let i := spline_find_seg sd.x t
  let xi := sd.x.getD i 0
  (sd.segs.getD i []).map (fun c => polyDeriv c (t - xi))

/-- `r_middle = 1.5 * col_res / h` (source line 1271). -/
def rMidOf (colRes : Grid α) (h : List α) : Grid α :=
  List.zipWith (fun c hi => c.map (fun v => 3/2 * v / hi)) colRes h

/-- `sum(real(r * conj(r)))` of the relative residual `r / (1 + |f|)`
(source lines 730-736, real dtype). -/
def rmsRelSq (r f : Vec α) : α :=
  (List.zipWith (fun rv fv => (rv / (1 + |fv|)) * (rv / (1 + |fv|))) r f).sum

/-- The per-interval radicand of `estimate_rms_residuals` (source line 738):
`0.5 (32/45 ‖r_mid‖² + 49/90 (‖r₁‖² + ‖r₂‖²))`; the source's rms value is
its square root. -/
def estimate_rms_radicands (fcol : α → Vec α → Vec α → Vec α) (sq37 : α)
    (sol : SplineData α) (x h : List α) (p : Vec α) (rMid fMid : Grid α) :
    List α :=
  zipWith4 (fun xi hi rmc fmc =>
      let xm := xi + 1/2 * hi
      let s := 1/2 * hi * sq37
      let x1 := xm + s
      let x2 := xm - s
      let y1 := spline_eval sol x1
      let y2 := spline_eval sol x2
      let y1p := spline_deriv sol x1
      let y2p := spline_deriv sol x2
      let f1 := fcol x1 y1 p
      let f2 := fcol x2 y2 p
      let r1 := vsub y1p f1
      let r2 := vsub y2p f2
      1/2 * (32/45 * rmsRelSq rmc fmc + 49/90 * (rmsRelSq r1 f1 + rmsRelSq r2 f2)))
    x h rMid fMid

/-- The source mask `(rms_res > tol) & (rms_res < 100 * tol)`, applied to
radicands: `rad > tol²` and `rad < (100 tol)²`. -/
def insert1OfSq (tol : α) (rad : List α) : List ℕ :=
  (List.range rad.length).filter fun i =>
    decide (tol * tol < rad.getD i 0 ∧
      rad.getD i 0 < (100 * tol) * (100 * tol))

/-- The source mask `rms_res >= 100 * tol`, applied to radicands. -/
def insert2OfSq (tol : α) (rad : List α) : List ℕ :=
  (List.range rad.length).filter fun i =>
    decide ((100 * tol) * (100 * tol) ≤ rad.getD i 0)

/-! ## Driver loop (`solve_bvp`, source lines 1259-1323)

Scope of the embedding: the finite-difference Jacobian path
(`fun_jac = quad_jac = bc_jac = None`), no singular term (`S = None`, so
`B = D = None`), and the `nq = 0` Jacobian layout (for `nq > 0` the source
crashes in `construct_global_jac`, see above).  Input validation (lines
1181-1252) is replaced by hypotheses.  `h` always equals `np.diff(x)` at the
top of the loop (set at lines 1184 and 1298), so the loop recomputes it.
The mesh, and with it the loop, can grow at most `max_nodes` times; `fuel`
bounds the number of outer iterations, `none` meaning the bound was hit. -/

/-- The problem data `solve_bvp` closes over. -/
structure DriverIn (α : Type) where
  fcol : α → Vec α → Vec α → Vec α
  bcFun : Vec α → Vec α → Vec α → Vec α → Vec α → Vec α
  n : ℕ
  nq : ℕ
  tol : α
  max_nodes : ℕ
  sq37 : α

/-- The result record (source lines 1321-1323): note `q := q` — the driver
returns the quadrature grid it was given. -/
structure BVPResultM (α : Type) where
  sol : SplineData α
  p : Vec α
  x : List α
  y : Grid α
  q : Grid α
  yp : Grid α
  rms_radicands : List α
  niter : ℕ
  status : ℕ
  success : Bool
deriving DecidableEq

/-- `bc` Jacobian blocks for `nq = 0` via `estimate_bc_jac` (always defined
there; the `none` fallback is unreachable for `nq = 0`). -/
def bcJac0 (bc5 : Vec α → Vec α → Vec α → Vec α → Vec α → Vec α)
    (ya yb p bc0 : Vec α) : List (Vec α) × List (Vec α) × List (Vec α) :=
  match estimate_bc_jac bc5 ya [] yb [] p bc0 [] [] with
  | some (dya, _, dyb, _, dp) => (dya, dyb, dp)
  | none => ([], [], [])

/-- `sys_jac` of `prepare_sys` (source lines 443-483), on the
finite-difference path with `nq = 0` blocks. -/
def sys_jac (env : DriverIn α) (x h : List α) (y : Grid α) (p : Vec α)
    (yMid f fMid : Grid α) (bc0 : Vec α) : List (List α) :=
  let n := env.n
  let m := x.length
  let k := p.length
  let dfdy := estimate_fun_jac n env.fcol x y p f
  let dfdyM := estimate_fun_jac n env.fcol (xmidOf x h) yMid p fMid
  let dfdp := estimate_fun_jac_p k env.fcol x y p f
  let dfdpM := estimate_fun_jac_p k env.fcol (xmidOf x h) yMid p fMid
  let blocks0 := (List.range (m - 1)).map (fun i =>
    dPhi_dy_0_block n (h.getD i 0) (dfdy.getD i []) (dfdyM.getD i []))
  let blocks1 := (List.range (m - 1)).map (fun i =>
    dPhi_dy_1_block n (h.getD i 0) (dfdy.getD (i + 1) []) (dfdyM.getD i []))
  let pblocks := (List.range (m - 1)).map (fun i =>
    dPhi_dp_block n (h.getD i 0) (dfdyM.getD i []) (dfdp.getD i [])
      (dfdp.getD (i + 1) []) (dfdpM.getD i []))
  let bj := bcJac0 env.bcFun (col0 y) (colLast y) p bc0
  construct_global_jac_rows n m k blocks0 blocks1 pblocks bj.1 bj.2.1 bj.2.2

/-- The `NewtonIn` record `prepare_sys`/`solve_bvp` hand to `solve_newton`
for the current mesh. -/
def newtonInOf (env : DriverIn α) (x h : List α) : NewtonIn α :=
  { n := env.n
    nq := env.nq
    m := x.length
    h := h
    colFun := fun yy pp => collocation_fun env.fcol yy pp x h
    bcFun := env.bcFun
    jacFun := fun yy _ pp yMid f fMid bc0 => sys_jac env x h yy pp yMid f fMid bc0
    B := none
    bvp_tol := env.tol }

/-- The outer loop of `solve_bvp` (source lines 1259-1302) and the result
record (lines 1318-1323). -/
def solve_bvp_loop (env : DriverIn α) :
    ℕ → List α → Grid α → Grid α → Vec α → ℕ → Option (BVPResultM α)
  | 0, _, _, _, _, _ => none
  | fuel + 1, x, y, qg, p, iter =>
    let m := x.length
    let h := diff x
    let inp := newtonInOf env x h
    let nr := solve_newton inp y qg p
    let y1 := nr.1
    let p1 := nr.2.1
    let sing := nr.2.2
    let iter1 := iter + 1
    let cr := collocation_fun env.fcol y1 p1 x h
    let rMid := rMidOf cr.1 h
    let sol : SplineData α := ⟨x, create_spline y1 cr.2.2.1 h⟩
    let rad := estimate_rms_radicands env.fcol env.sq37 sol x h p1 rMid cr.2.2.2
    if sing then
      some ⟨sol, p1, x, y1, qg, cr.2.2.1, rad, iter1, 2, false⟩
    else
      let i1 := insert1OfSq env.tol rad
      let i2 := insert2OfSq env.tol rad
      let added := i1.length + 2 * i2.length
      if m + added > env.max_nodes then
        some ⟨sol, p1, x, y1, qg, cr.2.2.1, rad, iter1, 1, false⟩
      else if 0 < added then
        solve_bvp_loop env fuel (modify_mesh x i1 i2)
          ((modify_mesh x i1 i2).map (fun t => spline_eval sol t)) qg p1 iter1
      else
        some ⟨sol, p1, x, y1, qg, cr.2.2.1, rad, iter1, 0, true⟩

/-- `solve_bvp`, from validated inputs. -/
def solve_bvp (env : DriverIn α) (fuel : ℕ) (x : List α) (y q : Grid α)
    (p : Vec α) : Option (BVPResultM α) :=
  solve_bvp_loop env fuel x y q p 0

/-! ## C2: the quadrature grid is never committed -/

/-- A concrete Newton instance with one state, one quadrature unknown and two
nodes: `fun ≡ 0`, `bc = (ya + qa - 3, yb - 1)`, with its exact linear
Jacobian supplied as the `jac` closure (a parameter of `solve_newton` in the
source).  The solution is `y ≡ 1`, `q = 2`, reached in one full step. -/
def inpC2 : NewtonIn ℚ :=
  { n := 1
    nq := 1
    m := 2
    h := [1]
    colFun := fun yy pp => collocation_fun (fun _ _ _ => [0]) yy pp [0, 1] [1]
    bcFun := fun ya qa yb _ _ => [ya.getD 0 0 + qa.getD 0 0 - 3, yb.getD 0 0 - 1]
    jacFun := fun _ _ _ _ _ _ _ => [[-1, 1, 0], [1, 0, 1], [0, 1, 0]]
    B := none
    bvp_tol := 1/1000 }

/-- C2 (code bug): the Newton loop never commits the quadrature iterate —
`newtonStep` leaves the `q` field of the state untouched on every path
(the source's lines 647-648 read `y = y_new; p = p_new` with no
`q = q_new`, and line 666 returns only `y, p, singular`) — and on the
concrete instance `inpC2` the solver returns without `q` while the
spec-modelled committing variant (`solve_newton_commitQ`, "Commit Y, Q, P"
of §4.4 step 4) produces the accepted `q = 2 ≠ 0`; the driver's result
record then carries the initial guess (`q := q`, line 1321). -/
theorem C2_quadrature_never_committed :
    (∀ (α : Type) (_ : LinearOrderedField α) (inp : NewtonIn α) (fuel : ℕ)
        (s : NState α), (newtonStep inp fuel s).q = s.q) ∧
    solve_newton inpC2 [[0], [0]] [[0], [0]] [] = ([[1], [1]], [], false) ∧
    solve_newton_commitQ inpC2 [[0], [0]] [[0], [0]] [] =
      ([[1], [1]], [[2], [2]], [], false) ∧
    ([[2], [2]] : Grid ℚ) ≠ [[0], [0]] := by
  refine ⟨?_, by decide, by decide, by decide⟩
  intro α hinst inp fuel
  induction fuel with
  | zero => intro s; rfl
  | succ fuel ih =>
    intro s
    simp only [newtonStep]
    split
    · rfl
    · rename_i s1 heq
      have hq1 : s1.q = s.q := by
        by_cases hrec : s.recompute
        · rw [if_pos hrec] at heq
          cases hlu : luFactor (inp.jacFun s.y s.q s.p s.yMid s.f s.fMid s.bcRes) with
          | none => rw [hlu] at heq; cases heq
          | some lus =>
            rw [hlu] at heq
            cases heq
            rfl
        · rw [if_neg hrec] at heq
          cases heq
          rfl
      split
      · exact hq1
      · split
        · exact hq1
        · split
          · rw [ih]; exact hq1
          · rw [ih]; exact hq1

/-! ## C1: status 0 does not bound the boundary residual -/

/-- The concrete driver instance refuting C1: one state, no quadrature or
parameters, `fun ≡ 0` on the mesh `[0, 1]`, boundary condition
`bc(ya, yb) = -(ya² + 1)`, default `tol = 1e-3`.  The signed boundary
residual is always at most `-1`, so the Newton test `bc_res < tol_bc`
(no absolute value, source line 654) passes while `|bc_res| ≥ 1`;
`fun ≡ 0` makes every rms residual vanish, so the driver stops with
status 0.  `sq37 = 0` stands for `(3/7) ** 0.5`; on this run the spline and
its derivative are constant and the rhs is zero, so the quadrature abscissas
do not affect any returned value. -/
def envC1 : DriverIn ℚ :=
  { fcol := fun _ _ _ => [0]
    bcFun := fun ya _ _ _ _ => [-(ya.getD 0 0 * ya.getD 0 0) - 1]
    n := 1
    nq := 0
    tol := 1/1000
    max_nodes := 1000
    sq37 := 0 }

/-- The run refuting C1. -/
def c1run : Option (BVPResultM ℚ) := solve_bvp envC1 3 [0, 1] [[1], [1]] [] []

/-- C1 counterexample: `solve_bvp` returns with `status = 0` on `envC1`,
yet the boundary residual of the final iterate has absolute value
`≥ 1 > τ_bc = 0.05 · tol = 1/20000`, refuting
"whenever solve_bvp returns with status=0 … |R_bc| ≤ τ_bc". -/
theorem C1_counterexample :
    c1run.map (fun r => r.status) = some 0 ∧
    c1run.map (fun r =>
      (envC1.bcFun (col0 r.y) [] (colLast r.y) [] r.p).all
        (fun b => decide (|b| ≤ 5/100 * (1/1000)))) = some false := by
  decide

/-- A line-search trial's residual quadruple is the collocation evaluation at
its own trial point. -/
theorem lsTrial_consistent (inp : NewtonIn α) (lu : Vec α → Vec α)
    (y q : Grid α) (p : Vec α) (ySt : Grid α) (qSt pSt : Vec α) (alpha : α) :
    ((lsTrial inp lu y q p ySt qSt pSt alpha).colRes,
      (lsTrial inp lu y q p ySt qSt pSt alpha).yMid,
      (lsTrial inp lu y q p ySt qSt pSt alpha).f,
      (lsTrial inp lu y q p ySt qSt pSt alpha).fMid) =
      inp.colFun (lsTrial inp lu y q p ySt qSt pSt alpha).yNew
        (lsTrial inp lu y q p ySt qSt pSt alpha).pNew := rfl

/-- The line search hands back the residuals of the trial it stopped at. -/
theorem lineSearch_consistent (inp : NewtonIn α) (lu : Vec α → Vec α)
    (cost : α) (y q : Grid α) (p : Vec α) (ySt : Grid α) (qSt pSt : Vec α) :
    ∀ (t : ℕ) (alpha : α),
      ((lineSearch inp lu cost y q p ySt qSt pSt t alpha).colRes,
        (lineSearch inp lu cost y q p ySt qSt pSt t alpha).yMid,
        (lineSearch inp lu cost y q p ySt qSt pSt t alpha).f,
        (lineSearch inp lu cost y q p ySt qSt pSt t alpha).fMid) =
        inp.colFun (lineSearch inp lu cost y q p ySt qSt pSt t alpha).yNew
          (lineSearch inp lu cost y q p ySt qSt pSt t alpha).pNew := by
  intro t
  induction t with
  | zero => intro alpha; exact lsTrial_consistent inp lu y q p ySt qSt pSt alpha
  | succ t ih =>
    intro alpha
    rw [lineSearch]
    split
    · exact lsTrial_consistent inp lu y q p ySt qSt pSt alpha
    · exact ih (alpha * newton_tau)

/-- Along any clean run of the Newton loop the state's residual quadruple
stays consistent with its committed iterate, and a convergence-test exit
implies the test held at the exit state. -/
theorem newtonStep_exit_sound (inp : NewtonIn α) :
    ∀ (fuel : ℕ) (s : NState α),
      (s.colRes, s.yMid, s.f, s.fMid) = inp.colFun s.y s.p →
      s.exitK = none →
      ((newtonStep inp fuel s).colRes, (newtonStep inp fuel s).yMid,
        (newtonStep inp fuel s).f, (newtonStep inp fuel s).fMid) =
        inp.colFun (newtonStep inp fuel s).y (newtonStep inp fuel s).p ∧
      ((newtonStep inp fuel s).exitK = some NExitKind.convPass →
        convTestB inp (newtonStep inp fuel s).colRes
          (newtonStep inp fuel s).fMid (newtonStep inp fuel s).bcRes = true) := by
  intro fuel
  induction fuel with
  | zero =>
    intro s hcons hnone
    refine ⟨hcons, ?_⟩
    intro h
    simp only [newtonStep] at h
    rw [hnone] at h
    cases h
  | succ fuel ih =>
    intro s hcons hnone
    simp only [newtonStep]
    split
    · refine ⟨hcons, ?_⟩
      intro h
      simp at h
    · rename_i s1 heq
      have hs1 : s1.colRes = s.colRes ∧ s1.yMid = s.yMid ∧ s1.f = s.f ∧
          s1.fMid = s.fMid ∧ s1.y = s.y ∧ s1.p = s.p ∧ s1.exitK = s.exitK := by
        by_cases hrec : s.recompute
        · rw [if_pos hrec] at heq
          cases hlu : luFactor (inp.jacFun s.y s.q s.p s.yMid s.f s.fMid s.bcRes) with
          | none => rw [hlu] at heq; cases heq
          | some lus =>
            rw [hlu] at heq
            cases heq
            exact ⟨rfl, rfl, rfl, rfl, rfl, rfl, rfl⟩
        · rw [if_neg hrec] at heq
          cases heq
          exact ⟨rfl, rfl, rfl, rfl, rfl, rfl, rfl⟩
      have hls := lineSearch_consistent inp s1.lu s1.cost s1.y s1.q s1.p
        (chunkCols inp.n inp.m (List.take (inp.m * inp.n) s1.step))
        (List.take inp.nq (List.drop (inp.m * inp.n) s1.step))
        (List.drop (inp.m * inp.n + inp.nq) s1.step) n_trial 1
      split
      · refine ⟨hls, ?_⟩
        intro h
        simp at h
      · split
        · rename_i hconv
          exact ⟨hls, fun _ => hconv⟩
        · split
          · refine ih _ ?_ ?_
            · exact hls
            · show s1.exitK = none
              rw [hs1.2.2.2.2.2.2]
              exact hnone
          · refine ih _ ?_ ?_
            · exact hls
            · show s1.exitK = none
              rw [hs1.2.2.2.2.2.2]
              exact hnone

/-- Unpack the componentwise convergence test into explicit bounds. -/
theorem convTestB_implies_bounds (inp : NewtonIn α) (colRes fMid : Grid α)
    (bcRes : Vec α) (h : convTestB inp colRes fMid bcRes = true) :
    (∀ i, i < colRes.length → i < fMid.length → i < inp.h.length →
      ∀ r, r < (colRes.getD i []).length → r < (fMid.getD i []).length →
        |(colRes.getD i []).getD r 0| <
          2/3 * inp.h.getD i 0 * (5/100) * inp.bvp_tol *
            (1 + |(fMid.getD i []).getD r 0|)) ∧
    (∀ b ∈ bcRes, b < 5/100 * inp.bvp_tol) := by
  unfold convTestB at h
  rw [Bool.and_eq_true] at h
  refine ⟨?_, ?_⟩
  · intro i hic hif hih r hrc hrf
    have h1 := h.1
    rw [List.all_eq_true] at h1
    have hitl : i < (tolRList inp.h inp.bvp_tol).length := by
      simp [tolRList]; omega
    have hiz : i < (zipWith3 (fun ci fi ti =>
        (List.zipWith (fun c fv => decide (|c| < ti * (1 + |fv|))) ci fi).all id)
        colRes fMid (tolRList inp.h inp.bvp_tol)).length := by
      rw [length_zipWith3]
      simp [tolRList]
      omega
    have he := h1 _ (List.getElem_mem hiz)
    rw [getElem_zipWith3 _ hic hif hitl] at he
    simp only [id_eq] at he
    rw [List.all_eq_true] at he
    rw [List.getD_eq_getElem colRes [] hic] at hrc ⊢
    rw [List.getD_eq_getElem fMid [] hif] at hrf ⊢
    rw [List.getD_eq_getElem inp.h 0 hih]
    have hrz : r < (List.zipWith
        (fun c fv => decide (|c| <
          (tolRList inp.h inp.bvp_tol)[i] * (1 + |fv|)))
        colRes[i] fMid[i]).length := by
      rw [List.length_zipWith]
      omega
    have he2 := he _ (List.getElem_mem hrz)
    rw [List.getElem_zipWith] at he2
    simp only [id_eq, decide_eq_true_eq] at he2
    have htl : (tolRList inp.h inp.bvp_tol)[i] =
        2/3 * inp.h[i] * (5/100) * inp.bvp_tol := by
      simp [tolRList]
    rw [List.getD_eq_getElem _ 0 hrc, List.getD_eq_getElem _ 0 hrf, ← htl]
    exact he2
  · intro b hb
    have h2 := h.2
    rw [List.all_eq_true] at h2
    have := h2 b hb
    rw [decide_eq_true_iff] at this
    rw [tolBcOf] at this
    exact this

/-- C1 (amended): whenever the Newton loop stops at its componentwise
convergence test (source lines 653-655), the residuals of the committed
iterate satisfy `|R_col| < τ_r (1 + |F_mid|)` componentwise with
`τ_r = (2/3) H (5/100) tol`, and the boundary residual satisfies the signed
test `R_bc < τ_bc = (5/100) tol` componentwise — the code applies no
absolute value to `R_bc`, and `status = 0` of the driver does not by itself
imply these bounds (see the counterexample). -/
theorem C1_newton_convergence_exit_bounds (inp : NewtonIn α)
    (y q : Grid α) (p : Vec α)
    (hexit : (newtonFinal inp y q p).exitK = some NExitKind.convPass) :
    (∀ i, i < (newtonFinal inp y q p).colRes.length →
        i < (newtonFinal inp y q p).fMid.length → i < inp.h.length →
      ∀ r, r < ((newtonFinal inp y q p).colRes.getD i []).length →
          r < ((newtonFinal inp y q p).fMid.getD i []).length →
        |((newtonFinal inp y q p).colRes.getD i []).getD r 0| <
          2/3 * inp.h.getD i 0 * (5/100) * inp.bvp_tol *
            (1 + |((newtonFinal inp y q p).fMid.getD i []).getD r 0|)) ∧
    (∀ b ∈ (newtonFinal inp y q p).bcRes, b < 5/100 * inp.bvp_tol) ∧
    ((newtonFinal inp y q p).colRes, (newtonFinal inp y q p).yMid,
      (newtonFinal inp y q p).f, (newtonFinal inp y q p).fMid) =
      inp.colFun (newtonFinal inp y q p).y (newtonFinal inp y q p).p := by
  have hsound := newtonStep_exit_sound inp max_iter (newtonInit inp y q p)
    rfl rfl
  have hconv := hsound.2 hexit
  have hbounds := convTestB_implies_bounds inp _ _ _ hconv
  exact ⟨hbounds.1, hbounds.2, hsound.1⟩

/-- Witness for the amended C1 on the concrete converged instance `inpC2`:
the loop exits through the convergence test and the committed signed
boundary residuals are below `τ_bc`. -/
theorem C1_witness :
    (newtonFinal inpC2 [[0], [0]] [[0], [0]] []).exitK =
        some NExitKind.convPass ∧
    ((newtonFinal inpC2 [[0], [0]] [[0], [0]] []).bcRes).all
      (fun b => decide (b < 5/100 * inpC2.bvp_tol)) = true := by
  have h := C1_newton_convergence_exit_bounds inpC2 [[0], [0]] [[0], [0]] []
    (by decide)
  refine ⟨by decide, ?_⟩
  rw [List.all_eq_true]
  intro b hb
  exact decide_eq_true_iff.mpr (h.2.1 b hb)

/-! ## C6 and C7: exit conditions and mesh invariants of the driver loop -/

/-- The `y` the Newton call of one driver iteration returns. -/
def postY (env : DriverIn α) (x : List α) (y qg : Grid α) (p : Vec α) :
    Grid α :=
  (solve_newton (newtonInOf env x (diff x)) y qg p).1

/-- The `p` the Newton call of one driver iteration returns. -/
def postP (env : DriverIn α) (x : List α) (y qg : Grid α) (p : Vec α) :
    Vec α :=
  (solve_newton (newtonInOf env x (diff x)) y qg p).2.1

/-- The `singular` flag the Newton call of one driver iteration returns. -/
def postSing (env : DriverIn α) (x : List α) (y qg : Grid α) (p : Vec α) :
    Bool :=
  (solve_newton (newtonInOf env x (diff x)) y qg p).2.2

/-- The node derivatives `f` recomputed by the driver after the Newton call. -/
def postYp (env : DriverIn α) (x : List α) (y1 : Grid α) (p1 : Vec α) :
    Grid α :=
  (collocation_fun env.fcol y1 p1 x (diff x)).2.2.1

/-- The spline record the driver builds after the Newton call. -/
def postSol (env : DriverIn α) (x : List α) (y1 : Grid α) (p1 : Vec α) :
    SplineData α :=
  ⟨x, create_spline y1 (postYp env x y1 p1) (diff x)⟩

/-- The per-interval rms radicands the driver computes after the Newton
call. -/
def postRad (env : DriverIn α) (x : List α) (y1 : Grid α) (p1 : Vec α) :
    List α :=
  estimate_rms_radicands env.fcol env.sq37 (postSol env x y1 p1) x (diff x) p1
    (rMidOf (collocation_fun env.fcol y1 p1 x (diff x)).1 (diff x))
    (collocation_fun env.fcol y1 p1 x (diff x)).2.2.2

/-- The number of nodes one driver iteration schedules for insertion. -/
def addedOf (env : DriverIn α) (x : List α) (y1 : Grid α) (p1 : Vec α) : ℕ :=
  (insert1OfSq env.tol (postRad env x y1 p1)).length +
    2 * (insert2OfSq env.tol (postRad env x y1 p1)).length

/-- C6: one driver iteration with a non-singular Newton result exits with
`status = 1` exactly when the scheduled insertion would overflow
`max_nodes`, returning the current (pre-insertion) mesh together with its
spline and rms radicands; with nothing scheduled (and the mesh within
budget) it exits with `status = 0` and `success`; and any result the loop
returns keeps the mesh within `max_nodes` whenever the starting mesh was
within it. -/
theorem C6_node_budget_and_convergence (env : DriverIn α) :
    (∀ (fuel : ℕ) (x : List α) (y qg : Grid α) (p : Vec α) (iter : ℕ),
      postSing env x y qg p = false →
      env.max_nodes <
        x.length + addedOf env x (postY env x y qg p) (postP env x y qg p) →
      solve_bvp_loop env (fuel + 1) x y qg p iter =
        some ⟨postSol env x (postY env x y qg p) (postP env x y qg p),
              postP env x y qg p, x, postY env x y qg p, qg,
              postYp env x (postY env x y qg p) (postP env x y qg p),
              postRad env x (postY env x y qg p) (postP env x y qg p),
              iter + 1, 1, false⟩) ∧
    (∀ (fuel : ℕ) (x : List α) (y qg : Grid α) (p : Vec α) (iter : ℕ),
      postSing env x y qg p = false →
      addedOf env x (postY env x y qg p) (postP env x y qg p) = 0 →
      x.length ≤ env.max_nodes →
      solve_bvp_loop env (fuel + 1) x y qg p iter =
        some ⟨postSol env x (postY env x y qg p) (postP env x y qg p),
              postP env x y qg p, x, postY env x y qg p, qg,
              postYp env x (postY env x y qg p) (postP env x y qg p),
              postRad env x (postY env x y qg p) (postP env x y qg p),
              iter + 1, 0, true⟩) ∧
    (∀ (fuel : ℕ) (x : List α) (y qg : Grid α) (p : Vec α) (iter : ℕ)
        (r : BVPResultM α),
      solve_bvp_loop env fuel x y qg p iter = some r →
      x.length ≤ env.max_nodes → r.x.length ≤ env.max_nodes) := by
  refine ⟨?_, ?_, ?_⟩
  · intro fuel x y qg p iter hsing hover
    have hs : (solve_newton (newtonInOf env x (diff x)) y qg p).2.2 = false :=
      hsing
    simp only [solve_bvp_loop, hs, Bool.false_eq_true, if_false]
    split
    · rfl
    · rename_i hno
      exact absurd hover hno
  · intro fuel x y qg p iter hsing hadd hlen
    have hs : (solve_newton (newtonInOf env x (diff x)) y qg p).2.2 = false :=
      hsing
    simp only [solve_bvp_loop, hs, Bool.false_eq_true, if_false]
    split
    · rename_i hover
      have hover2 : env.max_nodes <
          x.length + addedOf env x (postY env x y qg p) (postP env x y qg p) :=
        hover
      exact absurd hover2 (by omega)
    · split
      · rename_i hpos
        have hpos2 :
            0 < addedOf env x (postY env x y qg p) (postP env x y qg p) :=
          hpos
        exact absurd hpos2 (by omega)
      · rfl
  · intro fuel
    induction fuel with
    | zero =>
      intro x y qg p iter r heq hx
      exact Option.noConfusion heq
    | succ fuel ih =>
      intro x y qg p iter r heq hx
      simp only [solve_bvp_loop] at heq
      split at heq
      · injection heq with heq2
        subst heq2
        exact hx
      · split at heq
        · injection heq with heq2
          subst heq2
          exact hx
        · split at heq
          · rename_i hnover hpos
            refine ih _ _ _ _ _ _ heq ?_
            rw [modify_mesh_length]
            omega
          · injection heq with heq2
            subst heq2
            exact hx

/-- A convergent concrete driver instance for the C6 witness: one state, no
quadrature or unknown parameters, `fun ≡ 0`, `bc = ya + yb - 5`; the exact
Newton step lands on `y ≡ 5/2`, every rms radicand is `0`, and nothing is
scheduled for insertion. -/
def env6 : DriverIn ℚ :=
  { fcol := fun _ _ _ => [0]
    bcFun := fun ya _ yb _ _ => [ya.getD 0 0 + yb.getD 0 0 - 5]
    n := 1
    nq := 0
    tol := 1/1000
    max_nodes := 1000
    sq37 := 0 }

/-- The same instance with the node budget already exhausted by the initial
mesh, forcing the `status = 1` exit. -/
def env6b : DriverIn ℚ :=
  { env6 with max_nodes := 1 }

/-- Witness for C6: on `env6b` the loop stops with `status = 1` on the
unmodified two-node mesh, on `env6` it stops with `status = 0`, and the
returned mesh respects the (large) budget of `env6`. -/
theorem C6_witness :
    (solve_bvp_loop env6b 1 [0, (1:ℚ)] [[1], [1]] [] [] 0).map
        (fun r => (r.x, r.status)) = some ([0, 1], 1) ∧
    (solve_bvp_loop env6 1 [0, (1:ℚ)] [[1], [1]] [] [] 0).map
        (fun r => (r.x, r.status)) = some ([0, 1], 0) ∧
    (2:ℕ) ≤ env6.max_nodes := by
  have hA := (C6_node_budget_and_convergence env6b).1 0 [0, 1] [[1], [1]] []
    [] 0 (by decide) (by decide)
  have hB := (C6_node_budget_and_convergence env6).2.1 0 [0, 1] [[1], [1]] []
    [] 0 (by decide) (by decide) (by decide)
  have hC := (C6_node_budget_and_convergence env6).2.2 1 [0, 1] [[1], [1]] []
    [] 0 _ hB (by decide)
  have hA2 : solve_bvp_loop env6b 1 [0, (1:ℚ)] [[1], [1]] [] [] 0 = _ := hA
  have hB2 : solve_bvp_loop env6 1 [0, (1:ℚ)] [[1], [1]] [] [] 0 = _ := hB
  refine ⟨?_, ?_, hC⟩
  · rw [hA2]
    rfl
  · rw [hB2]
    rfl

/-- Every index scheduled for one midpoint node indexes an interval. -/
theorem insert1OfSq_lt_length (tol : α) (rad : List α) :
    ∀ i ∈ insert1OfSq tol rad, i < rad.length := by
  intro i hi
  rw [insert1OfSq, List.mem_filter, List.mem_range] at hi
  exact hi.1

/-- Every index scheduled for two new nodes indexes an interval. -/
theorem insert2OfSq_lt_length (tol : α) (rad : List α) :
    ∀ i ∈ insert2OfSq tol rad, i < rad.length := by
  intro i hi
  rw [insert2OfSq, List.mem_filter, List.mem_range] at hi
  exact hi.1

theorem insert1OfSq_nodup (tol : α) (rad : List α) :
    (insert1OfSq tol rad).Nodup :=
  List.Nodup.filter _ (List.nodup_range _)

theorem insert2OfSq_nodup (tol : α) (rad : List α) :
    (insert2OfSq tol rad).Nodup :=
  List.Nodup.filter _ (List.nodup_range _)

/-- The two insertion schedules never name the same interval. -/
theorem insertSq_disjoint (tol : α) (rad : List α) :
    (insert1OfSq tol rad).Disjoint (insert2OfSq tol rad) := by
  intro i h1 h2
  rw [insert1OfSq, List.mem_filter, decide_eq_true_iff] at h1
  rw [insert2OfSq, List.mem_filter, decide_eq_true_iff] at h2
  exact absurd h2.2 (not_le.mpr h1.2.2)

/-- The radicand list never outnumbers the intervals of the mesh it was
computed from. -/
theorem length_estimate_rms_radicands_le
    (fcol : α → Vec α → Vec α → Vec α) (sq37 : α) (sol : SplineData α)
    (x h : List α) (p : Vec α) (rMid fMid : Grid α) :
    (estimate_rms_radicands fcol sq37 sol x h p rMid fMid).length ≤
      h.length := by
  rw [estimate_rms_radicands, length_zipWith4]
  omega

/-- A mesh refined along the driver's two radicand masks is again strictly
increasing, as long as the radicand list fits the intervals. -/
theorem modify_mesh_sq_sorted (tol : α) (rad x : List α)
    (hsort : List.Sorted (· < ·) x) (hle : rad.length ≤ x.length - 1) :
    List.Sorted (· < ·)
      (modify_mesh x (insert1OfSq tol rad) (insert2OfSq tol rad)) := by
  refine modify_mesh_sorted_lt hsort ?_ ?_ (insert1OfSq_nodup tol rad)
    (insert2OfSq_nodup tol rad) (insertSq_disjoint tol rad)
  · intro i hi
    have := insert1OfSq_lt_length tol rad i hi
    omega
  · intro i hi
    have := insert2OfSq_lt_length tol rad i hi
    omega

/-- C7: on a strictly increasing mesh with in-range, duplicate-free,
disjoint insertion schedules, `modify_mesh` returns a strictly increasing
mesh that keeps every old node and has exactly
`|x| + |insert_1| + 2·|insert_2|` nodes; consequently every result of the
driver loop started on a strictly increasing mesh has a strictly increasing
mesh with at least as many nodes. -/
theorem C7_mesh_stays_sorted_and_grows :
    (∀ (x : List α) (i1 i2 : List ℕ), List.Sorted (· < ·) x →
      (∀ i ∈ i1, i + 1 < x.length) → (∀ i ∈ i2, i + 1 < x.length) →
      i1.Nodup → i2.Nodup → i1.Disjoint i2 →
      List.Sorted (· < ·) (modify_mesh x i1 i2) ∧
      (∀ a ∈ x, a ∈ modify_mesh x i1 i2) ∧
      (modify_mesh x i1 i2).length = x.length + i1.length + 2 * i2.length) ∧
    (∀ (env : DriverIn α) (fuel : ℕ) (x : List α) (y qg : Grid α) (p : Vec α)
        (iter : ℕ) (r : BVPResultM α),
      solve_bvp_loop env fuel x y qg p iter = some r →
      List.Sorted (· < ·) x →
      List.Sorted (· < ·) r.x ∧ x.length ≤ r.x.length) := by
  refine ⟨?_, ?_⟩
  · intro x i1 i2 hx h1v h2v h1n h2n hd
    exact ⟨modify_mesh_sorted_lt hx h1v h2v h1n h2n hd,
      fun a ha => mem_modify_mesh_of_mem ha, modify_mesh_length x i1 i2⟩
  · intro env fuel
    induction fuel with
    | zero =>
      intro x y qg p iter r heq hsort
      exact Option.noConfusion heq
    | succ fuel ih =>
      intro x y qg p iter r heq hsort
      simp only [solve_bvp_loop] at heq
      split at heq
      · injection heq with heq2
        subst heq2
        exact ⟨hsort, le_refl _⟩
      · split at heq
        · injection heq with heq2
          subst heq2
          exact ⟨hsort, le_refl _⟩
        · split at heq
          · have hres := ih _ _ _ _ _ _ heq
              (modify_mesh_sq_sorted env.tol _ x hsort
                (le_trans
                  (length_estimate_rms_radicands_le env.fcol env.sq37 _ x
                    (diff x) _ _ _)
                  (le_of_eq (length_diff x))))
            refine ⟨hres.1, le_trans ?_ hres.2⟩
            rw [modify_mesh_length]
            omega
          · injection heq with heq2
            subst heq2
            exact ⟨hsort, le_refl _⟩

/-- Witness for C7: a concrete strictly increasing three-node mesh with one
midpoint insertion in interval 0 and a two-node insertion in interval 1. -/
theorem C7_witness :
    List.Sorted (· < ·) (modify_mesh ([0, 1, 2] : List ℚ) [0] [1]) ∧
    ((0:ℚ) ∈ modify_mesh ([0, 1, 2] : List ℚ) [0] [1]) ∧
    (modify_mesh ([0, 1, 2] : List ℚ) [0] [1]).length = 6 := by
  have h := (C7_mesh_stays_sorted_and_grows (α := ℚ)).1 [0, 1, 2] [0] [1]
    (by decide) (by decide) (by decide) (by decide) (by decide)
    (by intro a ha hb; simp at ha hb; omega)
  exact ⟨h.1, h.2.1 0 (by decide), h.2.2⟩

end BelugaBVP
